import Mathlib

/-!
# Verification of the incremental matroid-intersection engine

A shallow embedding, in Lean 4, of the core of the `cs4234-project`
repository: the stateful matroid-oracle abstraction, the problem
aggregator with rollback (`src/src/matroid_problem.cpp`), the baseline
greedy, the Kuhn-style bipartite maximum-matching solver, the
`(t,t+1)`-exchange local search and the approximation-ratio formula
(`src/src/matroid_intersection.cpp`), and the partition matroid oracle
declared in `src/include/matroid_implementations.h`.

Modelling conventions:
* C++ `std::vector` values become `List`; out-of-range reads of
  `vector<bool>`/`vector<int>` are modelled with `List.getD` (the C++
  code only ever indexes in range).
* The sentinel `-1` of the Kuhn solver's `match_vertex`/`match_edge`
  arrays becomes `Option ℕ`.
* C++ exceptions (`std::invalid_argument`, `std::runtime_error`,
  `std::out_of_range`) become `Option`/`Except` failures.
* `double` approximation ratios become the exact expression tree
  `RatioExpr`: every ratio the engine produces is either an exact
  rational or the `k = 3` closed-form `2 / (3 + 2 * s ^ (-0.3562))`,
  which `RatioExpr.toReal` interprets over `ℝ` with `Real.rpow`.
* The wall-clock probe of `checkTimeLimit` becomes an abstract
  `clock : ℕ → Bool` consulted at successive probe indices (`tick`).
* The unbounded C++ recursions and loops are driven by an explicit
  `fuel` argument; the C++ call depths are always bounded (by the
  ground-set size, resp. the partition size), so a large enough fuel
  reproduces the source behaviour exactly, and all theorems below are
  stated in a fuel-agnostic way.
-/

namespace MatroidEngine

/-! ## List helpers -/

theorem getD_set_eq {α : Type} (l : List α) (i : ℕ) (a d : α) (h : i < l.length) :
    (l.set i a).getD i d = a := by
  induction l generalizing i with
  | nil => simp at h
  | cons x xs ih =>
    cases i with
    | zero => simp [List.set, List.getD]
    | succ j =>
      simp only [List.set, List.getD, List.get?]
      exact ih j (by simpa using h)

theorem getD_set_ne {α : Type} (l : List α) (i j : ℕ) (a d : α) (h : i ≠ j) :
    (l.set i a).getD j d = l.getD j d := by
  induction l generalizing i j with
  | nil => simp [List.set]
  | cons x xs ih =>
    cases i with
    | zero =>
      cases j with
      | zero => exact absurd rfl h
      | succ j' => simp [List.set, List.getD]
    | succ i' =>
      cases j with
      | zero => simp [List.set, List.getD]
      | succ j' =>
        simp only [List.set, List.getD, List.get?]
        exact ih i' j' (fun hc => h (by rw [hc]))

theorem set_eq_self_of_getD_false (l : List Bool) (i : ℕ)
    (h : l.getD i false = false) : l.set i false = l := by
  induction l generalizing i with
  | nil => simp
  | cons x xs ih =>
    cases i with
    | zero => simp_all [List.getD]
    | succ j =>
      simp only [List.set, List.cons.injEq, true_and]
      exact ih j (by simpa [List.getD] using h)

theorem set_eq_self_of_getD_true (l : List Bool) (i : ℕ)
    (h : l.getD i false = true) : l.set i true = l := by
  induction l generalizing i with
  | nil => simp [List.getD] at h
  | cons x xs ih =>
    cases i with
    | zero => simp_all [List.getD]
    | succ j =>
      simp only [List.set, List.cons.injEq, true_and]
      exact ih j (by simpa [List.getD] using h)

theorem set_true_set_false (l : List Bool) (i : ℕ)
    (h : l.getD i false = false) : (l.set i true).set i false = l := by
  rw [List.set_set]
  exact set_eq_self_of_getD_false l i h

theorem set_false_set_true (l : List Bool) (i : ℕ)
    (h : l.getD i false = true) : (l.set i false).set i true = l := by
  rw [List.set_set]
  exact set_eq_self_of_getD_true l i h

theorem getD_true_lt_length (l : List Bool) (i : ℕ)
    (h : l.getD i false = true) : i < l.length := by
  by_contra hle
  rw [List.getD_eq_default] at h
  · exact Bool.false_ne_true h
  · omega

/-! ## The matroid oracle interface and the problem aggregator

`MatroidProblem::MatroidSet` (src/include/matroid_problem.h) is an abstract
class with two virtual members, `tryAddElement` and `removeElement`.  A
virtual-dispatch object is a pair of a behaviour (`OracleOps`) and a state
of type `σ`; heterogeneous oracle collections are obtained by letting `σ`
be a sum type. -/

structure OracleOps (σ : Type) where
  tryAdd : σ → ℕ → σ × Bool
  remove : σ → ℕ → σ

/-- The aggregator state of `MatroidProblem` (src/include/matroid_problem.h):
ground-set size, matroid count, the owned oracles (behaviour paired with
current state), and the `setMembership_` bit-vector. -/
structure MatroidProblem (σ : Type) where
  groundSetSize : ℕ
  matroidQuantity : ℕ
  matroids : List (OracleOps σ × σ)
  setMembership : List Bool

/-- The oracle sweep of `MatroidProblem::tryAddElement`
(src/src/matroid_problem.cpp:3-18): try each oracle in order; on the first
rejection remove the element from every oracle that had accepted it and
report failure.  The rejecting oracle keeps whatever state its own
`tryAddElement` left behind (the C++ code does not touch it again), and
later oracles are never consulted. -/
def tryAddList (e : ℕ) : List (OracleOps σ × σ) → List (OracleOps σ × σ) × Bool
  | [] => ([], true)
  | (ops, s) :: rest =>
    let p := ops.tryAdd s e
    if p.2 then
      let r := tryAddList e rest
      if r.2 then ((ops, p.1) :: r.1, true)
      else ((ops, ops.remove p.1 e) :: r.1, false)
    else ((ops, p.1) :: rest, false)

/-- `MatroidProblem::tryAddElement` (src/src/matroid_problem.cpp:3-18):
run the oracle sweep; on full success additionally set
`setMembership_[element]`. -/
def MatroidProblem.tryAddElement (mp : MatroidProblem σ) (e : ℕ) :
    MatroidProblem σ × Bool :=
  let r := tryAddList e mp.matroids
  ({ mp with
      matroids := r.1
      setMembership :=
        if r.2 then mp.setMembership.set e true else mp.setMembership },
    r.2)

/-- `MatroidProblem::removeElement` (src/src/matroid_problem.cpp:20-28):
`none` models the `std::invalid_argument` thrown when the element is not a
member; otherwise remove it from every oracle and clear the membership
bit. -/
def MatroidProblem.removeElement (mp : MatroidProblem σ) (e : ℕ) :
    Option (MatroidProblem σ) :=
  if mp.setMembership.getD e false = false then none
  else
    some { mp with
            matroids := mp.matroids.map (fun p => (p.1, p.1.remove p.2 e))
            setMembership := mp.setMembership.set e false }

/-! ## Approximation ratios and solution records -/

/-- Exact value of a C++ `double` approximation ratio: either a rational
(`1/k`, `(s+1)/(s+2)`, `0.0`, `1.0`) or the `k = 3` plateau formula at
depth `s`. -/
inductive RatioExpr : Type
  | ofRat (q : ℚ)
  | k3 (s : ℕ)
deriving DecidableEq, Repr

/-- Interpretation of a `RatioExpr` over the reals; the `k3` case is the
source's `2.0 / (3 + 2 * pow(s, -0.3562))`
(src/src/matroid_intersection.cpp:106). -/
noncomputable def RatioExpr.toReal : RatioExpr → ℝ
  | .ofRat q => (q : ℝ)
  | .k3 s => 2 / (3 + 2 * (s : ℝ) ^ (-0.3562 : ℝ))

/-- `ApproximationSolution` (src/include/matroid_intersection.h:9-18). -/
structure ApproximationSolution where
  approximationRatio : RatioExpr
  solution : List ℕ
deriving DecidableEq, Repr

/-- `computeApproximationRatio` (src/src/matroid_intersection.cpp:97-107).
The `s == 0` early return precedes every arity test; the
`std::invalid_argument` for `k ∉ {2, 3}` is modelled as `.error`. -/
def computeApproximationRatio (s k : ℕ) : Except String RatioExpr :=
  if s = 0 then .ok (.ofRat (1 / (k : ℚ)))
  else if k = 2 then .ok (.ofRat ((s + 1 : ℚ) / (s + 2)))
  else if k ≠ 3 then
    .error "Approximation ratio not supported for k != 2 or k != 3"
  else .ok (.k3 s)

/-- `convertMaskToSolution` (src/src/matroid_intersection.cpp:109-117). -/
def convertMaskToSolution (solutionMask : List Bool) : List ℕ :=
  (List.range solutionMask.length).filter (fun i => solutionMask.getD i false)

/-! ## Baseline greedy (src/src/matroid_intersection.cpp:15-28) -/

/-- The greedy sweep of `BaselineAlgorithm::run`: try every ground-set
element in ascending order, collecting the accepted ones. -/
def baselineSweep (mp : MatroidProblem σ) :
    List ℕ → MatroidProblem σ × List ℕ
  | [] => (mp, [])
  | e :: rest =>
    let r := mp.tryAddElement e
    let rec' := baselineSweep r.1 rest
    if r.2 then (rec'.1, e :: rec'.2) else (rec'.1, rec'.2)

/-- `BaselineAlgorithm::run` (src/src/matroid_intersection.cpp:15-28):
greedy over `0 .. groundSetSize-1`, emitted with ratio `1/k`.  The
post-run aggregator is returned alongside the record. -/
def BaselineAlgorithm.run (mp : MatroidProblem σ) :
    MatroidProblem σ × ApproximationSolution :=
  let r := baselineSweep mp (List.range mp.groundSetSize)
  (r.1, ⟨.ofRat (1 / (mp.matroidQuantity : ℚ)), r.2⟩)

/-! ## The matching problem and the partition oracle

`MatchingProblem` (src/include/matroid_implementations.h:12-45) extends the
aggregator with the hyperedge list and the per-partition vertex count. -/

structure MatchingProblem (σ : Type) where
  toMatroidProblem : MatroidProblem σ
  edges : List (List ℕ)
  vertexPerPartitionCount : ℕ

/-- State of `MatchingProblem::PartitionMatroidSet`
(src/include/matroid_implementations.h:29-44). -/
structure PartitionMatroidSet where
  groundSetSize : ℕ
  vertexPerPartitionCount : ℕ
  edge_to_vertex : List ℕ
  is_vertex_used : List Bool
  is_edge_used : List Bool
deriving DecidableEq, Repr

/-- Modelled from the spec: the member definitions of
`MatchingProblem::PartitionMatroidSet` are declared in
src/include/matroid_implementations.h but their translation unit is not
under src/.  Spec §4.1/§3: accept iff `vertex_used[v(e)]` is false; on
accept set both `vertex_used[v(e)]` and `edge_used[e]`; on reject leave
the state untouched; the `edge_used[e]` check guards against the
double-add programming error, which must fail loudly (modelled as
`.error`). -/
def PartitionMatroidSet.tryAddElement (m : PartitionMatroidSet) (e : ℕ) :
    Except String (PartitionMatroidSet × Bool) :=
  if m.is_edge_used.getD e false then .error "Element already in the set"
  else
    let v := m.edge_to_vertex.getD e 0
    if m.is_vertex_used.getD v false then .ok (m, false)
    else
      .ok ({ m with
              is_vertex_used := m.is_vertex_used.set v true
              is_edge_used := m.is_edge_used.set e true }, true)

/-- Modelled from the spec: missing translation unit as for
`PartitionMatroidSet.tryAddElement`.  Spec §4.1/§4.1-partition: removing
an element not in the set is a programming error (modelled as `.error`);
otherwise clear both flags. -/
def PartitionMatroidSet.removeElement (m : PartitionMatroidSet) (e : ℕ) :
    Except String PartitionMatroidSet :=
  if m.is_edge_used.getD e false then
    .ok { m with
            is_vertex_used := m.is_vertex_used.set (m.edge_to_vertex.getD e 0) false
            is_edge_used := m.is_edge_used.set e false }
  else .error "Element not in the set"

/-! ## Kuhn-style bipartite maximum matching
(src/src/matroid_intersection.cpp:39-91) -/

/-- Scratch state of `Kuhn2dMatchingAlgorithm::run`: the right-partition
arrays `match_vertex`/`match_edge` (C++ `-1` becomes `none`) and the
left-partition arrays `isVisited`/`isMatched`. -/
structure KuhnState where
  match_vertex : List (Option ℕ)
  match_edge : List (Option ℕ)
  isVisited : List Bool
  isMatched : List Bool
deriving DecidableEq, Repr

/-- The adjacency build of src/src/matroid_intersection.cpp:46-50: for each
edge index `i` in order, push `(edges[i][1], i)` onto `graph[edges[i][0]]`. -/
def addGraphEdges : List (List ℕ) → ℕ → List (List (ℕ × ℕ)) → List (List (ℕ × ℕ))
  | [], _, g => g
  | e :: rest, i, g =>
    addGraphEdges rest (i + 1)
      (g.set (e.getD 0 0) (g.getD (e.getD 0 0) [] ++ [(e.getD 1 0, i)]))

def buildGraph (n : ℕ) (edges : List (List ℕ)) : List (List (ℕ × ℕ)) :=
  addGraphEdges edges 0 (List.replicate n [])

/-- The augmenting commit of src/src/matroid_intersection.cpp:67-69:
`match_vertex[u] = v; match_edge[u] = edge_i; isMatched[v] = true`. -/
def kuhnCommit (st : KuhnState) (u ei v : ℕ) : KuhnState :=
  { st with
      match_vertex := st.match_vertex.set u (some v)
      match_edge := st.match_edge.set u (some ei)
      isMatched := st.isMatched.set v true }

/-- The neighbour loop of the `dfs` lambda
(src/src/matroid_intersection.cpp:65-72), parameterised by the recursive
call `rec` (the dfs at one lower fuel): for each `(u, edge_i)` in order,
commit if `match_vertex[u]` is unset or the recursive dfs on its current
partner succeeds; otherwise keep scanning with the state the failed
recursion left behind (its visited marks persist). -/
def dfsNeighbors (rec : KuhnState → ℕ → KuhnState × Bool) (v : ℕ) :
    List (ℕ × ℕ) → KuhnState → KuhnState × Bool
  | [], st => (st, false)
  | (u, ei) :: rest, st =>
    match st.match_vertex.getD u none with
    | none => (kuhnCommit st u ei v, true)
    | some w =>
      let r := rec st w
      if r.2 then (kuhnCommit r.1 u ei v, true)
      else dfsNeighbors rec v rest r.1

/-- The recursive `dfs` lambda (src/src/matroid_intersection.cpp:61-74):
fail on a visited vertex, otherwise mark it and scan its neighbours.  The
C++ recursion depth is bounded by the partition size, so the caller
supplies fuel `n + 1`. -/
def dfs (graph : List (List (ℕ × ℕ))) : ℕ → KuhnState → ℕ → KuhnState × Bool
  | 0, st, _ => (st, false)
  | fuel + 1, st, v =>
    if st.isVisited.getD v false then (st, false)
    else
      dfsNeighbors (dfs graph fuel) v (graph.getD v [])
        { st with isVisited := st.isVisited.set v true }

/-- One pass of the outer loop (src/src/matroid_intersection.cpp:80-83):
for each left vertex in order, run a dfs if it is unvisited and unmatched,
or-ing the successes into `any`. -/
def kuhnPass (graph : List (List (ℕ × ℕ))) (dfsFuel : ℕ) :
    List ℕ → KuhnState → Bool → KuhnState × Bool
  | [], st, any => (st, any)
  | v :: rest, st, any =>
    if !st.isVisited.getD v false && !st.isMatched.getD v false then
      let r := dfs graph dfsFuel st v
      kuhnPass graph dfsFuel rest r.1 (any || r.2)
    else kuhnPass graph dfsFuel rest st any

/-- The do-while of src/src/matroid_intersection.cpp:76-84: clear
`isVisited`, run a pass, repeat while any dfs succeeded.  Successful
passes are bounded by the partition size, so fuel `n + 1` suffices;
`none` is the fuel-exhaustion artefact. -/
def kuhnLoop (graph : List (List (ℕ × ℕ))) (n dfsFuel : ℕ) :
    ℕ → KuhnState → Option KuhnState
  | 0, _ => none
  | fuel + 1, st =>
    let r := kuhnPass graph dfsFuel (List.range n)
      { st with isVisited := List.replicate n false } false
    if r.2 then kuhnLoop graph n dfsFuel fuel r.1 else some r.1

/-- The matching recovery of src/src/matroid_intersection.cpp:85-89: for
each right vertex with a partner, collect its `match_edge` entry. -/
def kuhnSelection (n : ℕ) (st : KuhnState) : List ℕ :=
  (List.range n).filterMap (fun v =>
    match st.match_vertex.getD v none with
    | none => none
    | some _ => st.match_edge.getD v none)

/-- `Kuhn2dMatchingAlgorithm::run` (src/src/matroid_intersection.cpp:39-91).
The method only calls the const accessors `getEdges` and
`getVertexPerPartitionCount` of the problem, so the problem value is
returned unchanged next to the emitted record (ratio `1.0`). -/
def Kuhn2dMatchingAlgorithm.run (p : MatchingProblem σ) :
    Option (MatchingProblem σ × ApproximationSolution) :=
  let n := p.vertexPerPartitionCount
  let graph := buildGraph n p.edges
  let st0 : KuhnState :=
    ⟨List.replicate n none, List.replicate n none,
      List.replicate n false, List.replicate n false⟩
  match kuhnLoop graph n (n + 1) (n + 1) st0 with
  | none => none
  | some st => some (p, ⟨.ofRat 1, kuhnSelection n st⟩)

/-! ## Local search (src/src/matroid_intersection.cpp:119-245) -/

/-- The mutable environment of `LocalSearchAlgorithm::run`: the aggregator,
the `solutionMask` and `justRemoved` bit-vectors, the next wall-clock probe
index, and the sticky `timeLimitExceeded` flag. -/
structure LSState (σ : Type) where
  mp : MatroidProblem σ
  solutionMask : List Bool
  justRemoved : List Bool
  tick : ℕ
  timeLimitExceeded : Bool

/-- `checkTimeLimit` (src/src/matroid_intersection.cpp:127-137): probe the
clock at the current tick; on expiry set the sticky flag.  The result is
the probe outcome. -/
def checkTimeLimit (clock : ℕ → Bool) (st : LSState σ) : LSState σ × Bool :=
  ({ st with
      tick := st.tick + 1
      timeLimitExceeded := if clock st.tick then true else st.timeLimitExceeded },
    clock st.tick)

/-- The `addElements` lambda (src/src/matroid_intersection.cpp:139-159):
choose `addQuantity` more elements at indices `≥ idx`, skipping frozen
(`justRemoved`) and present (`solutionMask`) elements, speculating via the
aggregator and rolling back on failure.  `none` models the exceptions the
aggregator can throw (and fuel exhaustion, which the source never hits:
its recursion depth is bounded by `edgesCount - idx + 1`). -/
def addElements (clock : ℕ → Bool) (edgesCount : ℕ) :
    ℕ → LSState σ → ℕ → ℕ → Option (LSState σ × Bool)
  | 0, _, _, _ => none
  | fuel + 1, st, idx, addQuantity =>
    let c := checkTimeLimit clock st
    if c.2 then some (c.1, false)
    else if addQuantity = 0 then some (c.1, true)
    else if idx = edgesCount then some (c.1, false)
    else if c.1.justRemoved.getD idx false || c.1.solutionMask.getD idx false then
      addElements clock edgesCount fuel c.1 (idx + 1) addQuantity
    else
      let a := c.1.mp.tryAddElement idx
      if a.2 then
        let st1 := { c.1 with mp := a.1, solutionMask := c.1.solutionMask.set idx true }
        match addElements clock edgesCount fuel st1 (idx + 1) (addQuantity - 1) with
        | none => none
        | some (st2, b) =>
          if b then some (st2, true)
          else
            match st2.mp.removeElement idx with
            | none => none
            | some mp2 =>
              addElements clock edgesCount fuel
                { st2 with mp := mp2, solutionMask := st2.solutionMask.set idx false }
                (idx + 1) addQuantity
      else addElements clock edgesCount fuel { c.1 with mp := a.1 } (idx + 1) addQuantity

/-- The `removeAndAddElements` lambda
(src/src/matroid_intersection.cpp:160-182): choose `removeQuantity`
elements of the solution at indices `≥ idx` to remove (freezing them via
`justRemoved`), then add `addQuantity` elements via `addElements`.  On
failure-return the removal is rolled back; a rollback `tryAddElement` that
fails is the `std::runtime_error` at line 178, modelled as `none`. -/
def removeAndAddElements (clock : ℕ → Bool) (edgesCount : ℕ) :
    ℕ → LSState σ → ℕ → ℕ → ℕ → Option (LSState σ × Bool)
  | 0, _, _, _, _ => none
  | fuel + 1, st, idx, removeQuantity, addQuantity =>
    let c := checkTimeLimit clock st
    if c.2 then some (c.1, false)
    else if removeQuantity = 0 then addElements clock edgesCount fuel c.1 0 addQuantity
    else if idx = edgesCount then some (c.1, false)
    else if c.1.solutionMask.getD idx false then
      match c.1.mp.removeElement idx with
      | none => none
      | some mp1 =>
        let st1 := { c.1 with
                      mp := mp1
                      solutionMask := c.1.solutionMask.set idx false
                      justRemoved := c.1.justRemoved.set idx true }
        match removeAndAddElements clock edgesCount fuel st1 (idx + 1)
            (removeQuantity - 1) addQuantity with
        | none => none
        | some (st2, b) =>
          if b then some (st2, true)
          else
            let st3 := { st2 with justRemoved := st2.justRemoved.set idx false }
            let a := st3.mp.tryAddElement idx
            if a.2 then
              removeAndAddElements clock edgesCount fuel
                { st3 with mp := a.1, solutionMask := st3.solutionMask.set idx true }
                (idx + 1) removeQuantity addQuantity
            else none
    else removeAndAddElements clock edgesCount fuel c.1 (idx + 1) removeQuantity addQuantity

/-- The `for (int i = 0; i <= s; ++i)` attempt loop
(src/src/matroid_intersection.cpp:200-209) over the listed exchange sizes:
break on the sticky flag, stop at the first successful exchange. -/
def exchangeAttempts (clock : ℕ → Bool) (edgesCount frameFuel : ℕ) :
    List ℕ → LSState σ → Option (LSState σ × Bool)
  | [], st => some (st, false)
  | i :: rest, st =>
    if st.timeLimitExceeded then some (st, false)
    else
      match removeAndAddElements clock edgesCount frameFuel st 0 i (i + 1) with
      | none => none
      | some (st1, true) => some (st1, true)
      | some (st1, false) => exchangeAttempts clock edgesCount frameFuel rest st1

/-- The `do { ... } while (success && !timeLimitExceeded)` loop at depth
`s` (src/src/matroid_intersection.cpp:194-214): refill `justRemoved`,
attempt `(i, i+1)`-exchanges for `i ≤ s`, increment `solutionSize` on
success, break once `s == solutionSize`.  Returns the state and the final
`solutionSize`. -/
def plateauLoop (clock : ℕ → Bool) (edgesCount : ℕ) :
    ℕ → LSState σ → ℕ → ℕ → Option (LSState σ × ℕ)
  | 0, _, _, _ => none
  | fuel + 1, st, s, solutionSize =>
    if st.timeLimitExceeded then some (st, solutionSize)
    else
      let st1 := { st with justRemoved := List.replicate edgesCount false }
      match exchangeAttempts clock edgesCount fuel (List.range (s + 1)) st1 with
      | none => none
      | some (st2, success) =>
        let sz := if success then solutionSize + 1 else solutionSize
        if s = sz then some (st2, sz)
        else if success && !st2.timeLimitExceeded then
          plateauLoop clock edgesCount fuel st2 s sz
        else some (st2, sz)

/-- The outer `for (int s = 0;; ++s)` loop
(src/src/matroid_intersection.cpp:185-243): probe the clock at each new
depth (breaking with **no** further record on expiry), run the plateau
loop, then either emit the deadline record (`ratio 0` at depth 0, else
`computeApproximationRatio (s-1) k`) and stop, or emit the plateau record
(ratio forced to `1.0` when `s == solutionSize`, stopping in that case). -/
def lsOuterLoop (clock : ℕ → Bool) (edgesCount k : ℕ) :
    ℕ → LSState σ → ℕ → ℕ → List ApproximationSolution →
      Option (List ApproximationSolution)
  | 0, _, _, _, _ => none
  | fuel + 1, st, s, solutionSize, solutions =>
    let c := checkTimeLimit clock st
    if c.2 then some solutions
    else
      match plateauLoop clock edgesCount fuel c.1 s solutionSize with
      | none => none
      | some (st2, sz) =>
        if st2.timeLimitExceeded then
          match (if s = 0 then Except.ok (RatioExpr.ofRat 0)
                 else computeApproximationRatio (s - 1) k) with
          | .error _ => none
          | .ok r =>
            some (solutions ++ [⟨r, convertMaskToSolution st2.solutionMask⟩])
        else
          match computeApproximationRatio s k with
          | .error _ => none
          | .ok r0 =>
            let r := if s = sz then RatioExpr.ofRat 1 else r0
            let solutions1 := solutions ++ [⟨r, convertMaskToSolution st2.solutionMask⟩]
            if s = sz then some solutions1
            else lsOuterLoop clock edgesCount k fuel st2 (s + 1) sz solutions1

/-- `LocalSearchAlgorithm::run` (src/src/matroid_intersection.cpp:119-245):
fresh masks, tick 0, depth 0, empty emission list. -/
def LocalSearchAlgorithm.run (clock : ℕ → Bool) (fuel : ℕ)
    (mp : MatroidProblem σ) : Option (List ApproximationSolution) :=
  let edgesCount := mp.groundSetSize
  lsOuterLoop clock edgesCount mp.matroidQuantity fuel
    ⟨mp, List.replicate edgesCount false, List.replicate edgesCount false, 0, false⟩
    0 0 []

/-! ## Aggregator rollback lemmas -/

/-- On a rejected sweep, the oracle list is restored exactly, provided each
oracle leaves its state unchanged on rejection and `remove` undoes its own
accepted `tryAdd` (spec §3 invariant 4 / §8 round-trip). -/
theorem tryAddList_rollback {σ : Type} (e : ℕ) :
    ∀ ms : List (OracleOps σ × σ),
      (∀ p ∈ ms, ((p.1.tryAdd p.2 e).2 = false → (p.1.tryAdd p.2 e).1 = p.2) ∧
        ((p.1.tryAdd p.2 e).2 = true → p.1.remove (p.1.tryAdd p.2 e).1 e = p.2)) →
      (tryAddList e ms).2 = false → (tryAddList e ms).1 = ms
  | [], _, hf => by simp [tryAddList] at hf
  | (ops, s) :: rest, h, hf => by
    have hh := h (ops, s) (List.mem_cons_self _ _)
    have ht := fun p hp => h p (List.mem_cons_of_mem _ hp)
    by_cases h1 : (ops.tryAdd s e).2
    · by_cases h2 : (tryAddList e rest).2
      · simp [tryAddList, h1, h2] at hf
      · have ih := tryAddList_rollback e rest ht (by simpa using h2)
        simp only [tryAddList, h1, if_true, Bool.not_eq_true] at *
        simp only [h2, if_false] at *
        simp [ih, hh.2 h1]
    · simp only [Bool.not_eq_true] at h1
      simp [tryAddList, h1]
      exact hh.1 h1

/-- **C1.** If the aggregator's `tryAddElement(e)` returns `false` then the
whole aggregator state (membership bit-vector and every oracle's selected
set) equals the pre-call state: the sweep tries oracles in order and, on
the first rejection, removes `e` from exactly the oracles that accepted
it.  The hypotheses are the per-oracle contract the spec states for every
oracle (rejection leaves the oracle unchanged; `remove` undoes an accepted
`tryAdd`). -/
theorem aggregator_rejected_tryAdd_is_rollback {σ : Type}
    (mp : MatroidProblem σ) (e : ℕ)
    (hor : ∀ p ∈ mp.matroids,
      ((p.1.tryAdd p.2 e).2 = false → (p.1.tryAdd p.2 e).1 = p.2) ∧
      ((p.1.tryAdd p.2 e).2 = true → p.1.remove (p.1.tryAdd p.2 e).1 e = p.2))
    (hfail : (mp.tryAddElement e).2 = false) :
    (mp.tryAddElement e).1 = mp := by
  have hsnd : (tryAddList e mp.matroids).2 = false := hfail
  have hfst := tryAddList_rollback e mp.matroids hor hsnd
  simp [MatroidProblem.tryAddElement, hsnd, hfst]

/-- An oracle that rejects every element and never changes state; used to
instantiate the rollback theorems on a concrete aggregator. -/
def rejectOps : OracleOps Unit :=
  ⟨fun s _ => (s, false), fun s _ => s⟩

def mpReject : MatroidProblem Unit :=
  ⟨1, 1, [(rejectOps, ())], [false]⟩

/-- Witness for C1: a concrete one-oracle aggregator whose `tryAddElement 0`
is rejected, restored exactly. -/
theorem aggregator_rejected_tryAdd_is_rollback_witness :
    (mpReject.tryAddElement 0).1 = mpReject :=
  aggregator_rejected_tryAdd_is_rollback mpReject 0
    (by
      intro p hp
      simp only [mpReject, List.mem_singleton] at hp
      subst hp
      exact ⟨fun _ => rfl, fun h => by simp [rejectOps] at h⟩)
    rfl

/-! ## C5: the approximation-ratio formula's error behaviour -/

/-- Counterexample to C5 as stated: at depth `t = 0` the source returns
`1.0 / k` for *every* arity (the `s == 0` early return at
src/src/matroid_intersection.cpp:98-99 precedes the arity check), so
arity 4 at depth 0 does **not** raise `Unsupported`. -/
theorem computeApproximationRatio_no_error_at_depth_zero :
    computeApproximationRatio 0 4 = .ok (.ofRat (1 / (4 : ℚ))) := by
  rfl

/-- **C5 (amended).** `computeApproximationRatio` raises the `Unsupported`
(fatal `std::invalid_argument`) error for every arity `k ∉ {2, 3}` at
every depth `t ≥ 1`; at depth 0 it returns `1/k` for every arity. -/
theorem computeApproximationRatio_unsupported_arity (s k : ℕ)
    (hs : 1 ≤ s) (h2 : k ≠ 2) (h3 : k ≠ 3) :
    computeApproximationRatio s k =
      .error "Approximation ratio not supported for k != 2 or k != 3" := by
  unfold computeApproximationRatio
  rw [if_neg (by omega), if_neg h2, if_pos h3]

/-- Witness for the amended C5 at `s = 1`, `k = 4`. -/
theorem computeApproximationRatio_unsupported_arity_witness :
    computeApproximationRatio 1 4 =
      .error "Approximation ratio not supported for k != 2 or k != 3" :=
  computeApproximationRatio_unsupported_arity 1 4 (by decide) (by decide) (by decide)

/-! ## C8: the partition oracle -/

/-- **C8.** For an element `e` not already selected, the partition oracle's
`try_add(e)` succeeds iff `vertex_used[v(e)]` is false; on accept it sets
both `vertex_used[v(e)]` and `edge_used[e]`, on reject it leaves the state
untouched; and `remove(e)` on any state with `e` selected clears both
flags. -/
theorem partitionMatroid_tryAdd_remove_spec (m : PartitionMatroidSet) (e : ℕ)
    (h : m.is_edge_used.getD e false = false) :
    (m.is_vertex_used.getD (m.edge_to_vertex.getD e 0) false = true →
      m.tryAddElement e = .ok (m, false)) ∧
    (m.is_vertex_used.getD (m.edge_to_vertex.getD e 0) false = false →
      m.tryAddElement e = .ok
        ({ m with
            is_vertex_used := m.is_vertex_used.set (m.edge_to_vertex.getD e 0) true
            is_edge_used := m.is_edge_used.set e true }, true)) ∧
    (∀ m2 : PartitionMatroidSet, m2.is_edge_used.getD e false = true →
      m2.removeElement e = .ok
        { m2 with
            is_vertex_used := m2.is_vertex_used.set (m2.edge_to_vertex.getD e 0) false
            is_edge_used := m2.is_edge_used.set e false }) := by
  refine ⟨fun hv => ?_, fun hv => ?_, fun m2 hm2 => ?_⟩
  · simp only [PartitionMatroidSet.tryAddElement]
    rw [h, hv]
    simp
  · simp only [PartitionMatroidSet.tryAddElement]
    rw [h, hv]
    simp
  · simp only [PartitionMatroidSet.removeElement]
    rw [hm2]
    simp

/-- Witness for C8 on a concrete one-edge oracle. -/
theorem partitionMatroid_tryAdd_remove_spec_witness :
    PartitionMatroidSet.tryAddElement ⟨1, 1, [0], [false], [false]⟩ 0 =
      .ok (⟨1, 1, [0], [true], [true]⟩, true) :=
  (partitionMatroid_tryAdd_remove_spec ⟨1, 1, [0], [false], [false]⟩ 0 rfl).2.1 rfl

/-! ## C10: the Kuhn solver's frame effect on the aggregator -/

/-- **C10.** `Kuhn2dMatchingAlgorithm::run` never mutates the underlying
`MatchingProblem`: the problem value it returns (aggregator membership and
every oracle's state included) is the pre-call value, and the emitted
record depends only on the edge list and the per-partition vertex count. -/
theorem kuhn_run_readonly {σ : Type} (p q : MatchingProblem σ)
    (he : q.edges = p.edges)
    (hn : q.vertexPerPartitionCount = p.vertexPerPartitionCount) :
    (∀ r, Kuhn2dMatchingAlgorithm.run p = some r → r.1 = p) ∧
    (Kuhn2dMatchingAlgorithm.run q).map Prod.snd =
      (Kuhn2dMatchingAlgorithm.run p).map Prod.snd := by
  constructor
  · intro r hr
    unfold Kuhn2dMatchingAlgorithm.run at hr
    rcases hL : kuhnLoop (buildGraph p.vertexPerPartitionCount p.edges)
        p.vertexPerPartitionCount (p.vertexPerPartitionCount + 1)
        (p.vertexPerPartitionCount + 1)
        ⟨List.replicate p.vertexPerPartitionCount none,
          List.replicate p.vertexPerPartitionCount none,
          List.replicate p.vertexPerPartitionCount false,
          List.replicate p.vertexPerPartitionCount false⟩ with _ | st
    · simp only [hL] at hr
      exact absurd hr (by simp)
    · simp only [hL] at hr
      cases hr.symm
      rfl
  · unfold Kuhn2dMatchingAlgorithm.run
    rw [he, hn]
    cases hL : kuhnLoop (buildGraph p.vertexPerPartitionCount p.edges)
        p.vertexPerPartitionCount (p.vertexPerPartitionCount + 1)
        (p.vertexPerPartitionCount + 1)
        ⟨List.replicate p.vertexPerPartitionCount none,
          List.replicate p.vertexPerPartitionCount none,
          List.replicate p.vertexPerPartitionCount false,
          List.replicate p.vertexPerPartitionCount false⟩ <;> simp [hL]

/-- Witness for C10 on a concrete empty matching problem. -/
theorem kuhn_run_readonly_witness :
    ((⟨⟨0, 2, [], []⟩, [], 0⟩ : MatchingProblem Unit),
      (⟨.ofRat 1, []⟩ : ApproximationSolution)).1 =
      (⟨⟨0, 2, [], []⟩, [], 0⟩ : MatchingProblem Unit) :=
  (kuhn_run_readonly (⟨⟨0, 2, [], []⟩, [], 0⟩ : MatchingProblem Unit)
    ⟨⟨0, 2, [], []⟩, [], 0⟩ rfl rfl).1 (⟨⟨0, 2, [], []⟩, [], 0⟩, ⟨.ofRat 1, []⟩) rfl

/-! ## C4 and C7: the outer local-search loop's emissions -/

/-- For the supported arities the ratio formula never throws. -/
theorem computeApproximationRatio_isOk (s k : ℕ) (hk : k = 2 ∨ k = 3) :
    ∃ r, computeApproximationRatio s k = .ok r := by
  rcases hk with rfl | rfl <;> by_cases hs : s = 0 <;>
    simp [computeApproximationRatio, hs]

/-- **C4.** If, at depth `s`, the deadline has not fired (the depth-entry
probe is negative and the plateau loop ends with the sticky flag clear)
and the plateau loop ends with `s` equal to the solution size, the outer
loop emits exactly one more record, with ratio exactly `1.0` and the
current selection, and terminates: no further depth is attempted. -/
theorem localSearch_trivially_optimal_plateau {σ : Type}
    (clock : ℕ → Bool) (E k fuel s sz sz2 : ℕ) (st st1 st2 : LSState σ)
    (sols : List ApproximationSolution)
    (hprobe : checkTimeLimit clock st = (st1, false))
    (hinner : plateauLoop clock E fuel st1 s sz = some (st2, sz2))
    (hflag : st2.timeLimitExceeded = false)
    (hs : s = sz2) (hk : k = 2 ∨ k = 3) :
    lsOuterLoop clock E k (fuel + 1) st s sz sols =
      some (sols ++ [⟨.ofRat 1, convertMaskToSolution st2.solutionMask⟩]) := by
  obtain ⟨r0, hr0⟩ := computeApproximationRatio_isOk s k hk
  simp only [lsOuterLoop, hprobe, hinner, hflag, hr0, if_neg Bool.false_ne_true,
    Bool.false_eq_true, if_false, if_pos hs]

/-- Witness for C4: the empty `k = 2` instance under a never-firing clock
reaches `s = solutionSize = 0` immediately and the outer loop emits the
single record `⟨1.0, []⟩`. -/
theorem localSearch_trivially_optimal_plateau_witness :
    lsOuterLoop (fun _ => false) 0 2 4
      ⟨(⟨0, 2, [], []⟩ : MatroidProblem Unit), [], [], 0, false⟩ 0 0 [] =
      some [⟨.ofRat 1, []⟩] :=
  localSearch_trivially_optimal_plateau (fun _ => false) 0 2 3 0 0 0
    ⟨⟨0, 2, [], []⟩, [], [], 0, false⟩
    ⟨⟨0, 2, [], []⟩, [], [], 1, false⟩
    ⟨⟨0, 2, [], []⟩, [], [], 3, false⟩ [] rfl rfl rfl rfl (Or.inl rfl)

/-- Counterexample to C7 as stated: with the deadline already elapsed at
the very first probe (local search "at depth 0"), the outer loop's
depth-entry check (src/src/matroid_intersection.cpp:187-191) breaks with
**no** final record at all — the run returns an empty list rather than the
claimed ratio-0 record. -/
theorem localSearch_deadline_at_depth_entry_emits_nothing :
    LocalSearchAlgorithm.run (fun _ => true) 1 (⟨0, 2, [], []⟩ : MatroidProblem Unit) =
        some [] ∧
      some ([] : List ApproximationSolution) ≠
        some [⟨.ofRat 0, []⟩] := by
  exact ⟨rfl, by decide⟩

/-- **C7 (amended).** If the deadline fires while the engine is inside the
depth-`s` exchange phase (the depth-entry probe was negative but the
plateau loop ends with the sticky flag set), the outer loop emits exactly
one final record with the formula ratio for depth `s−1` (ratio 0 when
`s = 0`) and the current selection, and terminates.  When instead the
deadline is first detected at the depth-entry probe, the loop terminates
without any additional record. -/
theorem localSearch_deadline_inside_depth_emits_previous_ratio {σ : Type}
    (clock : ℕ → Bool) (E k fuel s sz sz2 : ℕ) (st st1 st2 : LSState σ)
    (r : RatioExpr) (sols : List ApproximationSolution)
    (hprobe : checkTimeLimit clock st = (st1, false))
    (hinner : plateauLoop clock E fuel st1 s sz = some (st2, sz2))
    (hflag : st2.timeLimitExceeded = true)
    (hr : (if s = 0 then Except.ok (RatioExpr.ofRat 0)
           else computeApproximationRatio (s - 1) k) = .ok r) :
    lsOuterLoop clock E k (fuel + 1) st s sz sols =
      some (sols ++ [⟨r, convertMaskToSolution st2.solutionMask⟩]) := by
  simp only [lsOuterLoop, hprobe, hinner, hflag, hr, Bool.false_eq_true, if_false,
    if_true]

/-- Witness for the amended C7: the empty `k = 2` instance under a clock
that fires from the second probe on; the deadline is detected inside the
depth-0 phase and the run emits the ratio-0 record. -/
theorem localSearch_deadline_inside_depth_emits_previous_ratio_witness :
    lsOuterLoop (fun t => decide (1 ≤ t)) 0 2 4
      ⟨(⟨0, 2, [], []⟩ : MatroidProblem Unit), [], [], 0, false⟩ 0 0 [] =
      some [⟨.ofRat 0, []⟩] :=
  localSearch_deadline_inside_depth_emits_previous_ratio (fun t => decide (1 ≤ t))
    0 2 3 0 0 0
    ⟨⟨0, 2, [], []⟩, [], [], 0, false⟩
    ⟨⟨0, 2, [], []⟩, [], [], 1, false⟩
    ⟨⟨0, 2, [], []⟩, [], [], 2, true⟩ (.ofRat 0) [] rfl rfl rfl rfl

/-! ## C9: empty instances -/

theorem getD_replicate_self {α : Type} (a : α) :
    ∀ n v, (List.replicate n a).getD v a = a := by
  intro n
  induction n with
  | zero => intro v; simp [List.getD]
  | succ m ih =>
    intro v
    cases v with
    | zero => simp [List.replicate, List.getD]
    | succ w =>
      rw [List.replicate]
      simp only [List.getD_cons_succ]
      exact ih w

/-- With an all-empty adjacency list a dfs can only mark its argument
visited and fail. -/
theorem dfs_empty_graph (graph : List (List (ℕ × ℕ)))
    (h : ∀ v, graph.getD v [] = []) (fuel : ℕ) (st : KuhnState) (v : ℕ) :
    (dfs graph fuel st v).2 = false ∧
    (dfs graph fuel st v).1.match_vertex = st.match_vertex ∧
    (dfs graph fuel st v).1.match_edge = st.match_edge ∧
    (dfs graph fuel st v).1.isMatched = st.isMatched := by
  cases fuel with
  | zero => simp [dfs]
  | succ m =>
    by_cases hv : st.isVisited.getD v false = true
    · simp only [dfs]
      rw [hv]
      simp
    · simp only [Bool.not_eq_true] at hv
      simp only [dfs]
      rw [hv, h v]
      simp [dfsNeighbors]

/-- A pass over an all-empty adjacency list changes nothing but the
visited marks and reports no success beyond the incoming flag. -/
theorem kuhnPass_empty_graph (graph : List (List (ℕ × ℕ))) (dfsFuel : ℕ)
    (h : ∀ v, graph.getD v [] = []) :
    ∀ (vs : List ℕ) (st : KuhnState) (any : Bool),
      (kuhnPass graph dfsFuel vs st any).2 = any ∧
      (kuhnPass graph dfsFuel vs st any).1.match_vertex = st.match_vertex ∧
      (kuhnPass graph dfsFuel vs st any).1.match_edge = st.match_edge ∧
      (kuhnPass graph dfsFuel vs st any).1.isMatched = st.isMatched
  | [], st, any => by simp [kuhnPass]
  | v :: rest, st, any => by
    obtain ⟨hd2, hdv, hde, hdm⟩ := dfs_empty_graph graph h dfsFuel st v
    obtain ⟨hp2, hpv, hpe, hpm⟩ :=
      kuhnPass_empty_graph graph dfsFuel h rest (dfs graph dfsFuel st v).1
        (any || (dfs graph dfsFuel st v).2)
    obtain ⟨hq2, hqv, hqe, hqm⟩ :=
      kuhnPass_empty_graph graph dfsFuel h rest st any
    rw [hd2, Bool.or_false] at hp2 hpv hpe hpm
    rw [hdv] at hpv
    rw [hde] at hpe
    rw [hdm] at hpm
    simp only [kuhnPass]
    split
    · rw [hd2, Bool.or_false]
      exact ⟨hp2, hpv, hpe, hpm⟩
    · exact ⟨hq2, hqv, hqe, hqm⟩

/-- `Kuhn2dMatchingAlgorithm::run` on an instance with no edges emits the
empty selection with ratio `1.0` (and returns the problem untouched). -/
theorem kuhn_run_no_edges {σ : Type} (p : MatchingProblem σ)
    (he : p.edges = []) :
    Kuhn2dMatchingAlgorithm.run p = some (p, ⟨.ofRat 1, []⟩) := by
  unfold Kuhn2dMatchingAlgorithm.run
  rw [he]
  have hadj : ∀ v, (buildGraph p.vertexPerPartitionCount []).getD v [] = [] := by
    intro v
    simp only [buildGraph, addGraphEdges]
    exact getD_replicate_self [] p.vertexPerPartitionCount v
  set n := p.vertexPerPartitionCount with hn
  set st0 : KuhnState :=
    ⟨List.replicate n none, List.replicate n none,
      List.replicate n false, List.replicate n false⟩ with hst0
  obtain ⟨hp2, hpv, hpe, hpm⟩ :=
    kuhnPass_empty_graph (buildGraph n []) (n + 1) hadj (List.range n)
      { st0 with isVisited := List.replicate n false } false
  simp only [kuhnLoop, hp2, Bool.false_eq_true, if_false]
  have hsel : kuhnSelection n
      (kuhnPass (buildGraph n []) (n + 1) (List.range n)
        { st0 with isVisited := List.replicate n false } false).1 = [] := by
    unfold kuhnSelection
    rw [List.filterMap_eq_nil_iff]
    intro v _
    rw [hpv]
    simp only [hst0]
    rw [getD_replicate_self]
  rw [hsel]

/-- Counterexample to C9 as stated: on the empty instance the baseline
emits ratio `1/k` (here `1/2`), not `1.0` — `BaselineAlgorithm::run`
always stamps `1.0 / getMatroidQuantity()`
(src/src/matroid_intersection.cpp:26-27). -/
theorem baseline_empty_instance_ratio_is_half :
    (BaselineAlgorithm.run (⟨0, 2, [], []⟩ : MatroidProblem Unit)).2 =
        ⟨.ofRat (1 / 2), []⟩ ∧
      RatioExpr.ofRat (1 / 2) ≠ RatioExpr.ofRat 1 := by
  constructor
  · show ApproximationSolution.mk (.ofRat (1 / ((2 : ℕ) : ℚ))) [] = _
    norm_num
  · intro hcon
    rw [RatioExpr.ofRat.injEq] at hcon
    norm_num at hcon

/-- **C9 (amended).** On an empty instance (ground set `N = 0`, hence no
edges), the baseline immediately emits the empty selection with ratio
`1/k`, while Kuhn and local search immediately emit the empty selection
with ratio `1.0`. -/
theorem empty_instance_emissions {σ : Type} :
    (∀ mp : MatroidProblem σ, mp.groundSetSize = 0 →
      BaselineAlgorithm.run mp =
        (mp, ⟨.ofRat (1 / (mp.matroidQuantity : ℚ)), []⟩)) ∧
    (∀ p : MatchingProblem σ, p.edges = [] →
      Kuhn2dMatchingAlgorithm.run p = some (p, ⟨.ofRat 1, []⟩)) ∧
    (∀ clock : ℕ → Bool, (∀ t, clock t = false) →
      ∀ (mp : MatroidProblem σ) (fuel : ℕ), mp.groundSetSize = 0 →
        LocalSearchAlgorithm.run clock (fuel + 4) mp = some [⟨.ofRat 1, []⟩]) := by
  refine ⟨fun mp h0 => ?_, fun p he => kuhn_run_no_edges p he,
    fun clock hclock mp fuel h0 => ?_⟩
  · unfold BaselineAlgorithm.run
    rw [h0]
    simp [baselineSweep]
  · unfold LocalSearchAlgorithm.run
    rw [h0]
    simp only [List.replicate]
    simp [lsOuterLoop, plateauLoop, exchangeAttempts, removeAndAddElements,
      addElements, checkTimeLimit, hclock, computeApproximationRatio,
      convertMaskToSolution]

/-- Witness for the amended C9 on concrete empty instances. -/
theorem empty_instance_emissions_witness :
    BaselineAlgorithm.run (⟨0, 3, [], []⟩ : MatroidProblem Unit) =
      ((⟨0, 3, [], []⟩ : MatroidProblem Unit), ⟨.ofRat (1 / ((3 : ℕ) : ℚ)), []⟩) :=
  (empty_instance_emissions (σ := Unit)).1 ⟨0, 3, [], []⟩ rfl

/-! ## C6: range of emitted ratios -/

theorem toReal_ofRat (q : ℚ) : (RatioExpr.ofRat q).toReal = (q : ℝ) := rfl

/-- The `k = 3` plateau formula `2 / (3 + 2·s^(−0.3562))` lies in `(0, 1]`
for every depth. -/
theorem k3_toReal_mem_unit (s : ℕ) :
    0 < (RatioExpr.k3 s).toReal ∧ (RatioExpr.k3 s).toReal ≤ 1 := by
  have hx : (0 : ℝ) ≤ (s : ℝ) ^ (-0.3562 : ℝ) :=
    Real.rpow_nonneg (Nat.cast_nonneg s) _
  have hden : (0 : ℝ) < 3 + 2 * (s : ℝ) ^ (-0.3562 : ℝ) := by linarith
  simp only [RatioExpr.toReal]
  constructor
  · exact div_pos two_pos hden
  · rw [div_le_one hden]
    linarith

/-- On the supported arities every successfully computed ratio lies in
`(0, 1]`. -/
theorem computeApproximationRatio_mem_unit (s k : ℕ)
    (hk : k = 2 ∨ k = 3) (r : RatioExpr)
    (h : computeApproximationRatio s k = .ok r) :
    0 < r.toReal ∧ r.toReal ≤ 1 := by
  unfold computeApproximationRatio at h
  by_cases hs : s = 0
  · rw [if_pos hs] at h
    cases h
    rw [toReal_ofRat]
    rcases hk with rfl | rfl <;> norm_num
  · rw [if_neg hs] at h
    rcases hk with rfl | rfl
    · rw [if_pos rfl] at h
      cases h
      rw [toReal_ofRat]
      constructor
      · push_cast
        positivity
      · push_cast
        rw [div_le_one (by positivity)]
        linarith
    · rw [if_neg (by norm_num), if_neg (by norm_num)] at h
      cases h
      exact k3_toReal_mem_unit s

/-- The approximation-ratio bound the amended C6 asserts of each local
search record: in `(0, 1]` unless it is the ratio-0 deadline record. -/
def ratioInUnitOrZero (r : ApproximationSolution) : Prop :=
  (0 < r.approximationRatio.toReal ∧ r.approximationRatio.toReal ≤ 1) ∨
    r.approximationRatio = .ofRat 0

/-- Every record the outer local-search loop appends satisfies
`ratioInUnitOrZero`. -/
theorem lsOuterLoop_records {σ : Type} (clock : ℕ → Bool) (E k : ℕ)
    (hk : k = 2 ∨ k = 3) :
    ∀ (fuel : ℕ) (st : LSState σ) (s sz : ℕ)
      (sols res : List ApproximationSolution),
      lsOuterLoop clock E k fuel st s sz sols = some res →
      (∀ r ∈ sols, ratioInUnitOrZero r) → ∀ r ∈ res, ratioInUnitOrZero r := by
  intro fuel
  induction fuel with
  | zero => intro st s sz sols res hres; simp [lsOuterLoop] at hres
  | succ fuel ih =>
    intro st s sz sols res hres hsols
    simp only [lsOuterLoop] at hres
    split at hres
    · cases hres
      exact hsols
    · split at hres
      next hpl => cases hres
      next st2 sz2 hpl =>
        split at hres
        next hf =>
          split at hres
          next msg hr => cases hres
          next r hr =>
            cases hres
            intro x hx
            rcases List.mem_append.mp hx with hx | hx
            · exact hsols x hx
            · rcases List.mem_singleton.mp hx with rfl
              by_cases hs : s = 0
              · rw [if_pos hs] at hr
                cases hr
                exact Or.inr rfl
              · rw [if_neg hs] at hr
                exact Or.inl (computeApproximationRatio_mem_unit (s - 1) k hk r hr)
        next hf =>
          split at hres
          next msg hr0 => cases hres
          next r0 hr0 =>
            by_cases hsz : s = sz2
            · rw [if_pos hsz, if_pos hsz] at hres
              cases hres
              intro x hx
              rcases List.mem_append.mp hx with hx | hx
              · exact hsols x hx
              · rcases List.mem_singleton.mp hx with rfl
                refine Or.inl ?_
                rw [toReal_ofRat]
                norm_num
            · rw [if_neg hsz, if_neg hsz] at hres
              refine ih st2 (s + 1) sz2 _ res hres ?_
              intro x hx
              rcases List.mem_append.mp hx with hx | hx
              · exact hsols x hx
              · rcases List.mem_singleton.mp hx with rfl
                exact Or.inl (computeApproximationRatio_mem_unit s k hk r0 hr0)

/-- Counterexample to C6 as stated: when the deadline fires during the
depth-0 phase, local search emits a record whose ratio is exactly `0`
(src/src/matroid_intersection.cpp:220-221), which is not `> 0`. -/
theorem localSearch_emits_ratio_zero_record :
    LocalSearchAlgorithm.run (fun t => decide (1 ≤ t)) 4
        (⟨0, 2, [], []⟩ : MatroidProblem Unit) = some [⟨.ofRat 0, []⟩] ∧
      ¬ (0 < (RatioExpr.ofRat 0).toReal) := by
  refine ⟨rfl, ?_⟩
  rw [toReal_ofRat]
  norm_num

/-- **C6 (amended).** On the arities this program builds (`k ∈ {2, 3}`),
every `ApproximationSolution` emitted by the baseline, by Kuhn, or by
local search has ratio in `(0, 1]`, except the final local-search record
emitted when the deadline fires at depth 0, which has ratio exactly 0. -/
theorem emitted_ratios_in_unit_interval {σ : Type} :
    (∀ mp : MatroidProblem σ,
      mp.matroidQuantity = 2 ∨ mp.matroidQuantity = 3 →
      0 < (BaselineAlgorithm.run mp).2.approximationRatio.toReal ∧
        (BaselineAlgorithm.run mp).2.approximationRatio.toReal ≤ 1) ∧
    (∀ (p : MatchingProblem σ) res, Kuhn2dMatchingAlgorithm.run p = some res →
      0 < res.2.approximationRatio.toReal ∧
        res.2.approximationRatio.toReal ≤ 1) ∧
    (∀ (clock : ℕ → Bool) (fuel : ℕ) (mp : MatroidProblem σ),
      mp.matroidQuantity = 2 ∨ mp.matroidQuantity = 3 →
      ∀ res, LocalSearchAlgorithm.run clock fuel mp = some res →
        ∀ r ∈ res, ratioInUnitOrZero r) := by
  refine ⟨fun mp hk => ?_, fun p res hres => ?_, fun clock fuel mp hk res hres => ?_⟩
  · have hrun : (BaselineAlgorithm.run mp).2.approximationRatio =
        .ofRat (1 / (mp.matroidQuantity : ℚ)) := rfl
    rw [hrun, toReal_ofRat]
    rcases hk with hk | hk <;> rw [hk] <;> norm_num
  · unfold Kuhn2dMatchingAlgorithm.run at hres
    dsimp only at hres
    split at hres
    · cases hres
    · cases hres
      refine ⟨?_, ?_⟩ <;> norm_num [RatioExpr.toReal]
  · exact lsOuterLoop_records clock mp.groundSetSize mp.matroidQuantity hk fuel
      _ 0 0 [] res hres (by simp)

/-- Witness for the amended C6: the baseline record of a concrete `k = 2`
instance. -/
theorem emitted_ratios_in_unit_interval_witness :
    0 < (BaselineAlgorithm.run (⟨0, 2, [], []⟩ : MatroidProblem Unit)).2.approximationRatio.toReal ∧
      (BaselineAlgorithm.run (⟨0, 2, [], []⟩ : MatroidProblem Unit)).2.approximationRatio.toReal ≤ 1 :=
  (emitted_ratios_in_unit_interval (σ := Unit)).1 ⟨0, 2, [], []⟩ (Or.inl rfl)

/-! ## C2: the local-search frames restore state on failure

The spec's per-oracle contract (§3, §4.1, §8 round-trip), relative to an
invariant `Inv` on oracle states and a selectedness predicate `sel s e`. -/

structure OracleContract (σ : Type) (Inv : σ → Prop) (sel : σ → ℕ → Prop)
    (ops : OracleOps σ) : Prop where
  reject_eq : ∀ s e, Inv s → (ops.tryAdd s e).2 = false → (ops.tryAdd s e).1 = s
  add_remove : ∀ s e, Inv s → (ops.tryAdd s e).2 = true →
    ops.remove (ops.tryAdd s e).1 e = s
  remove_add : ∀ s e, Inv s → sel s e → ops.tryAdd (ops.remove s e) e = (s, true)
  add_inv : ∀ s e, Inv s → Inv (ops.tryAdd s e).1
  remove_inv : ∀ s e, Inv s → sel s e → Inv (ops.remove s e)
  add_sel : ∀ s e, Inv s → (ops.tryAdd s e).2 = true → sel (ops.tryAdd s e).1 e
  add_sel_other : ∀ s e f, Inv s → sel s f → sel (ops.tryAdd s e).1 f
  remove_sel_other : ∀ s e f, Inv s → sel s f → f ≠ e → sel (ops.remove s e) f

/-- The aggregator invariant: every owned oracle satisfies the contract,
its state satisfies `Inv`, and every member of the intersection is
selected by every oracle. -/
def MPInv {σ : Type} (Inv : σ → Prop) (sel : σ → ℕ → Prop)
    (mp : MatroidProblem σ) : Prop :=
  ∀ p ∈ mp.matroids, OracleContract σ Inv sel p.1 ∧ Inv p.2 ∧
    ∀ e, mp.setMembership.getD e false = true → sel p.2 e

/-- Inversion for `removeElement`. -/
theorem removeElement_eq_some {σ : Type} {mp mp1 : MatroidProblem σ} {e : ℕ}
    (h : mp.removeElement e = some mp1) :
    mp.setMembership.getD e false = true ∧
    mp1 = { mp with
              matroids := mp.matroids.map (fun p => (p.1, p.1.remove p.2 e))
              setMembership := mp.setMembership.set e false } := by
  unfold MatroidProblem.removeElement at h
  split at h
  · cases h
  · next hmem =>
    cases h
    exact ⟨Bool.not_eq_false _ ▸ (Bool.of_not_eq_false hmem), rfl⟩

/-- A fully accepted sweep turns every oracle state into its post-accept
state. -/
theorem tryAddList_true {σ : Type} (e : ℕ) :
    ∀ ms : List (OracleOps σ × σ), (tryAddList e ms).2 = true →
      (tryAddList e ms).1 = ms.map (fun p => (p.1, (p.1.tryAdd p.2 e).1)) ∧
      ∀ p ∈ ms, (p.1.tryAdd p.2 e).2 = true
  | [], _ => by simp [tryAddList]
  | (ops, s) :: rest, h => by
    by_cases h1 : (ops.tryAdd s e).2
    · by_cases h2 : (tryAddList e rest).2
      · obtain ⟨ih1, ih2⟩ := tryAddList_true e rest h2
        refine ⟨?_, ?_⟩
        · simp [tryAddList, h1, h2, ih1]
        · intro p hp
          rcases List.mem_cons.mp hp with rfl | hp
          · exact h1
          · exact ih2 p hp
      · simp only [Bool.not_eq_true] at h2
        simp [tryAddList, h1, h2] at h
    · simp only [Bool.not_eq_true] at h1
      simp [tryAddList, h1] at h

/-- Removing from every post-accept state restores the pre-sweep list. -/
theorem map_remove_tryAddList {σ : Type} {Inv : σ → Prop} {sel : σ → ℕ → Prop}
    (e : ℕ) :
    ∀ ms : List (OracleOps σ × σ),
      (∀ p ∈ ms, OracleContract σ Inv sel p.1 ∧ Inv p.2) →
      (∀ p ∈ ms, (p.1.tryAdd p.2 e).2 = true) →
      (ms.map (fun p => (p.1, (p.1.tryAdd p.2 e).1))).map
          (fun p => (p.1, p.1.remove p.2 e)) = ms := by
  intro ms hms hacc
  induction ms with
  | nil => simp
  | cons p rest ih =>
    have hp := hms p (List.mem_cons_self _ _)
    have hap := hacc p (List.mem_cons_self _ _)
    have ihh := ih (fun q hq => hms q (List.mem_cons_of_mem _ hq))
      (fun q hq => hacc q (List.mem_cons_of_mem _ hq))
    simp only [List.map_cons, List.map_map] at ihh ⊢
    rw [List.cons.injEq]
    exact ⟨by rw [hp.1.add_remove p.2 e hp.2 hap], ihh⟩

/-- Re-adding an element just removed from every oracle re-accepts it and
restores every oracle state. -/
theorem tryAddList_after_removeAll {σ : Type} {Inv : σ → Prop}
    {sel : σ → ℕ → Prop} (e : ℕ) :
    ∀ ms : List (OracleOps σ × σ),
      (∀ p ∈ ms, OracleContract σ Inv sel p.1 ∧ Inv p.2 ∧ sel p.2 e) →
      tryAddList e (ms.map (fun p => (p.1, p.1.remove p.2 e))) = (ms, true)
  | [], _ => by simp [tryAddList]
  | (ops, s) :: rest, h => by
    have hh := h (ops, s) (List.mem_cons_self _ _)
    have hra := hh.1.remove_add s e hh.2.1 hh.2.2
    dsimp only at hra
    have ih := tryAddList_after_removeAll e rest
      (fun q hq => h q (List.mem_cons_of_mem _ hq))
    simp [tryAddList, hra, ih]

/-- Aggregator round trip, one direction: a successful `tryAddElement`
followed by `removeElement` restores the aggregator exactly. -/
theorem tryAdd_then_remove {σ : Type} {Inv : σ → Prop} {sel : σ → ℕ → Prop}
    {mp mp2 : MatroidProblem σ} {e : ℕ}
    (hinv : MPInv Inv sel mp)
    (hmem : mp.setMembership.getD e false = false)
    (hadd : (mp.tryAddElement e).2 = true)
    (hrem : (mp.tryAddElement e).1.removeElement e = some mp2) :
    mp2 = mp := by
  have hsnd : (tryAddList e mp.matroids).2 = true := hadd
  obtain ⟨hfst, hacc⟩ := tryAddList_true e mp.matroids hsnd
  obtain ⟨_, hmp2⟩ := removeElement_eq_some hrem
  have hmats : (mp.tryAddElement e).1.matroids =
      mp.matroids.map (fun p => (p.1, (p.1.tryAdd p.2 e).1)) := by
    simp [MatroidProblem.tryAddElement, hfst]
  have hmemb : (mp.tryAddElement e).1.setMembership =
      mp.setMembership.set e true := by
    simp [MatroidProblem.tryAddElement, hsnd]
  rw [hmp2]
  cases mp with
  | mk gss k mats memb =>
    simp only [MatroidProblem.mk.injEq]
    refine ⟨by simp [MatroidProblem.tryAddElement], by simp [MatroidProblem.tryAddElement], ?_, ?_⟩
    · rw [hmats]
      exact map_remove_tryAddList e mats
        (fun p hp => ⟨(hinv p hp).1, (hinv p hp).2.1⟩) hacc
    · rw [hmemb]
      obtain ⟨hg, _⟩ := removeElement_eq_some hrem
      rw [hmemb] at hg
      have hlt : e < memb.length := by
        have := getD_true_lt_length _ _ hg
        simpa using this
      rw [List.set_set]
      exact set_eq_self_of_getD_false memb e hmem

/-- Aggregator round trip, the other direction: `removeElement` followed
by `tryAddElement` of the same element succeeds and restores the
aggregator exactly. -/
theorem remove_then_tryAdd {σ : Type} {Inv : σ → Prop} {sel : σ → ℕ → Prop}
    {mp mp1 : MatroidProblem σ} {e : ℕ}
    (hinv : MPInv Inv sel mp)
    (hrem : mp.removeElement e = some mp1) :
    mp1.tryAddElement e = (mp, true) := by
  obtain ⟨hmem, hmp1⟩ := removeElement_eq_some hrem
  have hlist : tryAddList e mp1.matroids = (mp.matroids, true) := by
    rw [hmp1]
    exact tryAddList_after_removeAll e mp.matroids
      (fun p hp => ⟨(hinv p hp).1, (hinv p hp).2.1, (hinv p hp).2.2 e hmem⟩)
  have hmembr : mp1.setMembership.set e true = mp.setMembership := by
    rw [hmp1]
    exact set_false_set_true _ _ hmem
  have h2 : (mp1.tryAddElement e).2 = true := by
    simp [MatroidProblem.tryAddElement, hlist]
  have h1 : (mp1.tryAddElement e).1 = mp := by
    simp only [MatroidProblem.tryAddElement, hlist]
    rw [hmembr, hmp1]
    simp
  exact Prod.ext h1 h2

/-- `MPInv` is preserved by `tryAddElement` (either outcome). -/
theorem MPInv_tryAdd {σ : Type} {Inv : σ → Prop} {sel : σ → ℕ → Prop}
    {mp : MatroidProblem σ} (e : ℕ) (hinv : MPInv Inv sel mp) :
    MPInv Inv sel (mp.tryAddElement e).1 := by
  by_cases hsnd : (tryAddList e mp.matroids).2 = true
  · obtain ⟨hfst, hacc⟩ := tryAddList_true e mp.matroids hsnd
    intro q hq
    have hmats : (mp.tryAddElement e).1.matroids =
        mp.matroids.map (fun p => (p.1, (p.1.tryAdd p.2 e).1)) := by
      simp [MatroidProblem.tryAddElement, hfst]
    have hmemb : (mp.tryAddElement e).1.setMembership =
        mp.setMembership.set e true := by
      simp [MatroidProblem.tryAddElement, hsnd]
    rw [hmats] at hq
    obtain ⟨p, hp, rfl⟩ := List.mem_map.mp hq
    obtain ⟨hc, hi, hs⟩ := hinv p hp
    refine ⟨hc, hc.add_inv p.2 e hi, fun f hf => ?_⟩
    rw [hmemb] at hf
    by_cases hfe : f = e
    · subst hfe
      exact hc.add_sel p.2 f hi (hacc p hp)
    · rw [getD_set_ne _ _ _ _ _ (fun hc2 => hfe hc2.symm)] at hf
      exact hc.add_sel_other p.2 e f hi (hs f hf)
  · simp only [Bool.not_eq_true] at hsnd
    have hroll := tryAddList_rollback e mp.matroids
      (fun p hp => ⟨fun hrej => (hinv p hp).1.reject_eq p.2 e (hinv p hp).2.1 hrej,
        fun hok => (hinv p hp).1.add_remove p.2 e (hinv p hp).2.1 hok⟩) hsnd
    have : (mp.tryAddElement e).1 = mp := by
      simp [MatroidProblem.tryAddElement, hsnd, hroll]
    rw [this]
    exact hinv

/-- `MPInv` is preserved by a successful `removeElement`. -/
theorem MPInv_remove {σ : Type} {Inv : σ → Prop} {sel : σ → ℕ → Prop}
    {mp mp1 : MatroidProblem σ} {e : ℕ} (hinv : MPInv Inv sel mp)
    (hrem : mp.removeElement e = some mp1) :
    MPInv Inv sel mp1 := by
  obtain ⟨hmem, hmp1⟩ := removeElement_eq_some hrem
  intro q hq
  rw [hmp1] at hq
  simp only at hq
  obtain ⟨p, hp, rfl⟩ := List.mem_map.mp hq
  obtain ⟨hc, hi, hs⟩ := hinv p hp
  have hsel : sel p.2 e := hs e hmem
  refine ⟨hc, hc.remove_inv p.2 e hi hsel, fun f hf => ?_⟩
  rw [hmp1] at hf
  simp only at hf
  have hlt : e < mp.setMembership.length := getD_true_lt_length _ _ hmem
  by_cases hfe : f = e
  · subst hfe
    rw [getD_set_eq _ _ _ _ hlt] at hf
    cases hf
  · rw [getD_set_ne _ _ _ _ _ (fun hc2 => hfe hc2.symm)] at hf
    exact hc.remove_sel_other p.2 e f hi (hs f hf) hfe

/-- Membership update of an accepted aggregator add. -/
theorem tryAddElement_memb_true {σ : Type} {mp : MatroidProblem σ} {e : ℕ}
    (h : (mp.tryAddElement e).2 = true) :
    (mp.tryAddElement e).1.setMembership = mp.setMembership.set e true := by
  have hsnd : (tryAddList e mp.matroids).2 = true := h
  simp [MatroidProblem.tryAddElement, hsnd]

/-- A rejected aggregator add leaves the whole aggregator unchanged (given
the oracle contract). -/
theorem tryAddElement_false_state {σ : Type} {Inv : σ → Prop}
    {sel : σ → ℕ → Prop} {mp : MatroidProblem σ} {e : ℕ}
    (hinv : MPInv Inv sel mp) (h : (mp.tryAddElement e).2 = false) :
    (mp.tryAddElement e).1 = mp := by
  have hsnd : (tryAddList e mp.matroids).2 = false := h
  have hroll := tryAddList_rollback e mp.matroids
    (fun p hp => ⟨fun hrej => (hinv p hp).1.reject_eq p.2 e (hinv p hp).2.1 hrej,
      fun hok => (hinv p hp).1.add_remove p.2 e (hinv p hp).2.1 hok⟩) hsnd
  simp [MatroidProblem.tryAddElement, hsnd, hroll]

/-- The invariant carried by every local-search recursion frame: the
aggregator invariant, the mirror equality `solutionMask = setMembership`,
and disjointness of `justRemoved` from the solution. -/
def FrameInv {σ : Type} (Inv : σ → Prop) (sel : σ → ℕ → Prop)
    (st : LSState σ) : Prop :=
  MPInv Inv sel st.mp ∧ st.solutionMask = st.mp.setMembership ∧
    ∀ i, st.justRemoved.getD i false = true → st.solutionMask.getD i false = false

theorem FrameInv_of_fields {σ : Type} {Inv : σ → Prop} {sel : σ → ℕ → Prop}
    {st t : LSState σ} (h : FrameInv Inv sel st) (hmp : t.mp = st.mp)
    (hmask : t.solutionMask = st.solutionMask)
    (hjr : t.justRemoved = st.justRemoved) : FrameInv Inv sel t := by
  unfold FrameInv at *
  rw [hmp, hmask, hjr]
  exact h

/-- Every failure return of the addition phase restores the aggregator,
`solutionMask` and `justRemoved` to their values at frame entry. -/
theorem addElements_frame {σ : Type} (clock : ℕ → Bool) (E : ℕ)
    (Inv : σ → Prop) (sel : σ → ℕ → Prop) :
    ∀ (fuel : ℕ) (st : LSState σ) (idx aq : ℕ) (st' : LSState σ),
      FrameInv Inv sel st →
      addElements clock E fuel st idx aq = some (st', false) →
      st'.mp = st.mp ∧ st'.solutionMask = st.solutionMask ∧
        st'.justRemoved = st.justRemoved := by
  intro fuel
  induction fuel with
  | zero => intro st idx aq st' _ h; simp [addElements] at h
  | succ fuel ih =>
    intro st idx aq st' hFI h
    simp only [addElements] at h
    split at h
    · simp only [Option.some.injEq, Prod.mk.injEq] at h
      obtain ⟨h1, -⟩ := h
      subst h1
      exact ⟨rfl, rfl, rfl⟩
    · split at h
      · simp only [Option.some.injEq, Prod.mk.injEq] at h
        exact absurd h.2 (by simp)
      · split at h
        · simp only [Option.some.injEq, Prod.mk.injEq] at h
          obtain ⟨h1, -⟩ := h
          subst h1
          exact ⟨rfl, rfl, rfl⟩
        · split at h
          · exact ih (checkTimeLimit clock st).1 (idx + 1) aq st' hFI h
          · next hfree =>
            simp only [Bool.or_eq_true, not_or, Bool.not_eq_true] at hfree
            obtain ⟨hjridx, hmaskidx⟩ := hfree
            have hjridx2 : st.justRemoved.getD idx false = false := hjridx
            have hmaskidx2 : st.solutionMask.getD idx false = false := hmaskidx
            have hmemidx : st.mp.setMembership.getD idx false = false := by
              rw [← hFI.2.1]; exact hmaskidx2
            split at h
            · next hacc =>
              have hacc2 : (st.mp.tryAddElement idx).2 = true := hacc
              have hFI1 : FrameInv Inv sel
                  { (checkTimeLimit clock st).1 with
                      mp := ((checkTimeLimit clock st).1.mp.tryAddElement idx).1
                      solutionMask :=
                        (checkTimeLimit clock st).1.solutionMask.set idx true } := by
                refine ⟨MPInv_tryAdd idx hFI.1, ?_, ?_⟩
                · show st.solutionMask.set idx true =
                    (st.mp.tryAddElement idx).1.setMembership
                  rw [tryAddElement_memb_true hacc2, hFI.2.1]
                · intro i hi
                  have hi2 : st.justRemoved.getD i false = true := hi
                  show (st.solutionMask.set idx true).getD i false = false
                  by_cases hie : i = idx
                  · subst hie
                    rw [hjridx2] at hi2
                    exact (Bool.false_ne_true hi2).elim
                  · rw [getD_set_ne _ _ _ _ _ (fun hc => hie hc.symm)]
                    exact hFI.2.2 i hi2
              split at h
              · cases h
              · next st2 b hmid =>
                split at h
                · simp only [Option.some.injEq, Prod.mk.injEq] at h
                  exact absurd h.2 (by simp)
                · next hb =>
                  have hb' : b = false := by revert hb; cases b <;> simp
                  subst hb'
                  obtain ⟨e1, e2, e3⟩ := ih _ (idx + 1) (aq - 1) st2 hFI1 hmid
                  have e1' : st2.mp = (st.mp.tryAddElement idx).1 := e1
                  have e2' : st2.solutionMask = st.solutionMask.set idx true := e2
                  have e3' : st2.justRemoved = st.justRemoved := e3
                  split at h
                  · cases h
                  · next mp2 hrem =>
                    rw [e1'] at hrem
                    have hmp2 : mp2 = st.mp :=
                      tryAdd_then_remove hFI.1 hmemidx hacc2 hrem
                    have hmask3 : st2.solutionMask.set idx false = st.solutionMask := by
                      rw [e2']
                      exact set_true_set_false _ _ hmaskidx2
                    obtain ⟨f1, f2, f3⟩ := ih
                      ⟨mp2, st2.solutionMask.set idx false, st2.justRemoved,
                        st2.tick, st2.timeLimitExceeded⟩ (idx + 1) aq st'
                      (FrameInv_of_fields hFI hmp2 hmask3 e3') h
                    exact ⟨f1.trans hmp2, f2.trans hmask3, f3.trans e3'⟩
            · next hacc =>
              have hacc' : ((checkTimeLimit clock st).1.mp.tryAddElement idx).2 = false := by
                revert hacc
                cases hx : ((checkTimeLimit clock st).1.mp.tryAddElement idx).2 <;> simp
              have hr1 : ((checkTimeLimit clock st).1.mp.tryAddElement idx).1 = st.mp :=
                tryAddElement_false_state hFI.1 hacc'
              obtain ⟨f1, f2, f3⟩ := ih
                ⟨((checkTimeLimit clock st).1.mp.tryAddElement idx).1,
                  (checkTimeLimit clock st).1.solutionMask,
                  (checkTimeLimit clock st).1.justRemoved,
                  (checkTimeLimit clock st).1.tick,
                  (checkTimeLimit clock st).1.timeLimitExceeded⟩ (idx + 1) aq st'
                (FrameInv_of_fields hFI hr1 rfl rfl) h
              exact ⟨f1.trans hr1, f2, f3⟩

/-- Every failure return of the removal phase restores the aggregator,
`solutionMask` and `justRemoved` to their values at frame entry. -/
theorem removeAndAddElements_frame {σ : Type} (clock : ℕ → Bool) (E : ℕ)
    (Inv : σ → Prop) (sel : σ → ℕ → Prop) :
    ∀ (fuel : ℕ) (st : LSState σ) (idx rq aq : ℕ) (st' : LSState σ),
      FrameInv Inv sel st →
      removeAndAddElements clock E fuel st idx rq aq = some (st', false) →
      st'.mp = st.mp ∧ st'.solutionMask = st.solutionMask ∧
        st'.justRemoved = st.justRemoved := by
  intro fuel
  induction fuel with
  | zero => intro st idx rq aq st' _ h; simp [removeAndAddElements] at h
  | succ fuel ih =>
    intro st idx rq aq st' hFI h
    simp only [removeAndAddElements] at h
    split at h
    · simp only [Option.some.injEq, Prod.mk.injEq] at h
      obtain ⟨h1, -⟩ := h
      subst h1
      exact ⟨rfl, rfl, rfl⟩
    · split at h
      · -- removeQuantity = 0: delegate to the addition phase
        exact addElements_frame clock E Inv sel fuel (checkTimeLimit clock st).1
          0 aq st' hFI h
      · split at h
        · simp only [Option.some.injEq, Prod.mk.injEq] at h
          obtain ⟨h1, -⟩ := h
          subst h1
          exact ⟨rfl, rfl, rfl⟩
        · split at h
          · -- solutionMask[idx]: speculative removal
            next hin =>
            have hmaskidx : st.solutionMask.getD idx false = true := hin
            have hjridx : st.justRemoved.getD idx false = false := by
              cases hx : st.justRemoved.getD idx false with
              | false => rfl
              | true =>
                rw [hFI.2.2 idx hx] at hmaskidx
                exact (Bool.false_ne_true hmaskidx).elim
            have hmask_lt : idx < st.solutionMask.length :=
              getD_true_lt_length _ _ hmaskidx
            split at h
            · cases h
            · next mp1 hrem =>
              have hrem2 : st.mp.removeElement idx = some mp1 := hrem
              have hmp1 := removeElement_eq_some hrem2
              have hFI1 : FrameInv Inv sel
                  { (checkTimeLimit clock st).1 with
                      mp := mp1
                      solutionMask := (checkTimeLimit clock st).1.solutionMask.set idx false
                      justRemoved := (checkTimeLimit clock st).1.justRemoved.set idx true } := by
                refine ⟨MPInv_remove hFI.1 hrem2, ?_, ?_⟩
                · show st.solutionMask.set idx false = mp1.setMembership
                  rw [hmp1.2]
                  rw [hFI.2.1]
                · intro i hi
                  have hi2 : (st.justRemoved.set idx true).getD i false = true := hi
                  show (st.solutionMask.set idx false).getD i false = false
                  by_cases hie : i = idx
                  · subst hie
                    exact getD_set_eq _ _ _ _ hmask_lt
                  · rw [getD_set_ne _ _ _ _ _ (fun hc => hie hc.symm)]
                    rw [getD_set_ne _ _ _ _ _ (fun hc => hie hc.symm)] at hi2
                    exact hFI.2.2 i hi2
              split at h
              · cases h
              · next st2 b hmid =>
                split at h
                · simp only [Option.some.injEq, Prod.mk.injEq] at h
                  exact absurd h.2 (by simp)
                · next hb =>
                  have hb' : b = false := by revert hb; cases b <;> simp
                  subst hb'
                  obtain ⟨e1, e2, e3⟩ := ih _ (idx + 1) (rq - 1) aq st2 hFI1 hmid
                  have e1' : st2.mp = mp1 := e1
                  have e2' : st2.solutionMask = st.solutionMask.set idx false := e2
                  have e3' : st2.justRemoved = st.justRemoved.set idx true := e3
                  have hra : mp1.tryAddElement idx = (st.mp, true) :=
                    remove_then_tryAdd hFI.1 hrem2
                  split at h
                  · next hacc =>
                    have hmp4 :
                        (({ st2 with justRemoved := st2.justRemoved.set idx false}
                          : LSState σ).mp.tryAddElement idx).1 = st.mp := by
                      show (st2.mp.tryAddElement idx).1 = st.mp
                      rw [e1', hra]
                    have hmask4 : st2.solutionMask.set idx true = st.solutionMask := by
                      rw [e2']
                      exact set_false_set_true _ _ hmaskidx
                    have hjr4 : st2.justRemoved.set idx false = st.justRemoved := by
                      rw [e3']
                      exact set_true_set_false _ _ hjridx
                    obtain ⟨f1, f2, f3⟩ := ih
                      ⟨(st2.mp.tryAddElement idx).1, st2.solutionMask.set idx true,
                        st2.justRemoved.set idx false, st2.tick,
                        st2.timeLimitExceeded⟩ (idx + 1) rq aq st'
                      (FrameInv_of_fields hFI hmp4 hmask4 hjr4) h
                    exact ⟨f1.trans hmp4, f2.trans hmask4, f3.trans hjr4⟩
                  · cases h
          · -- index not in the solution: plain scan
            exact ih (checkTimeLimit clock st).1 (idx + 1) rq aq st' hFI h

/-- **C2.** Whenever a recursion frame of the removal phase
(`removeAndAddElements`) or the addition phase (`addElements`) returns
`false` — including when the deadline probe fires at frame entry — the
aggregator state, `solutionMask`, and `justRemoved` at the moment of
return equal their values at entry to that frame (the probe counter and
the sticky deadline flag are the only things that may change).
Consequently a deadline abort leaves the aggregator holding exactly the
previously committed exchanges.  The hypotheses are the oracle contract
and the frame invariant (mask mirrors membership, `justRemoved` disjoint
from the solution), both maintained by the engine. -/
theorem localSearch_frames_restore_on_failure {σ : Type}
    (clock : ℕ → Bool) (E : ℕ) (Inv : σ → Prop) (sel : σ → ℕ → Prop)
    (st : LSState σ) (hFI : FrameInv Inv sel st) :
    (∀ (fuel idx aq : ℕ) (st' : LSState σ),
      addElements clock E fuel st idx aq = some (st', false) →
      st'.mp = st.mp ∧ st'.solutionMask = st.solutionMask ∧
        st'.justRemoved = st.justRemoved) ∧
    (∀ (fuel idx rq aq : ℕ) (st' : LSState σ),
      removeAndAddElements clock E fuel st idx rq aq = some (st', false) →
      st'.mp = st.mp ∧ st'.solutionMask = st.solutionMask ∧
        st'.justRemoved = st.justRemoved) :=
  ⟨fun fuel idx aq st' h =>
      addElements_frame clock E Inv sel fuel st idx aq st' hFI h,
    fun fuel idx rq aq st' h =>
      removeAndAddElements_frame clock E Inv sel fuel st idx rq aq st' hFI h⟩

/-- The always-rejecting oracle satisfies the contract with the trivial
invariant and the empty selectedness predicate. -/
theorem rejectOps_contract :
    OracleContract Unit (fun _ => True) (fun _ _ => False) rejectOps := by
  constructor
  · intro s e _ _; rfl
  · intro s e _ hok; exact absurd hok (by simp [rejectOps])
  · intro s e _ hsel; exact hsel.elim
  · intro s e _; trivial
  · intro s e _ hsel; exact hsel.elim
  · intro s e _ hok; exact absurd hok (by simp [rejectOps])
  · intro s e f _ hsel; exact hsel.elim
  · intro s e f _ hsel; exact hsel.elim

theorem stReject_frameInv :
    FrameInv (fun _ => True) (fun _ _ => False)
      (⟨mpReject, [false], [false], 0, false⟩ : LSState Unit) := by
  refine ⟨?_, rfl, ?_⟩
  · intro p hp
    simp only [mpReject, List.mem_singleton] at hp
    subst hp
    refine ⟨rejectOps_contract, trivial, fun e he => ?_⟩
    have he2 : ([false] : List Bool).getD e false = true := he
    have hx : ([false] : List Bool).getD e false = false :=
      getD_replicate_self false 1 e
    rw [hx] at he2
    exact (Bool.false_ne_true he2).elim
  · intro i hi
    have hi2 : ([false] : List Bool).getD i false = true := hi
    have hx : ([false] : List Bool).getD i false = false :=
      getD_replicate_self false 1 i
    rw [hx] at hi2
    exact (Bool.false_ne_true hi2).elim

/-- Witness for C2: a concrete removal-phase frame on a one-element
aggregator whose single oracle rejects everything; the frame fails and
the three state components are restored. -/
theorem localSearch_frames_restore_on_failure_witness :
    (⟨mpReject, [false], [false], 3, false⟩ : LSState Unit).mp = mpReject ∧
      ([false] : List Bool) = [false] ∧ ([false] : List Bool) = [false] :=
  (localSearch_frames_restore_on_failure (fun _ => false) 1
    (fun _ => True) (fun _ _ => False) ⟨mpReject, [false], [false], 0, false⟩
    stReject_frameInv).2 3 0 0 1 ⟨mpReject, [false], [false], 3, false⟩ rfl

/-! ## C3: the Kuhn solver computes a maximum matching

Groundwork: endpoints of an edge index, the matching predicate, and the
characterisation of the adjacency structure built by
src/src/matroid_intersection.cpp:46-50. -/

/-- `edges[i][0]`: the left endpoint of edge `i`. -/
def edgeLeft (edges : List (List ℕ)) (i : ℕ) : ℕ := (edges.getD i []).getD 0 0

/-- `edges[i][1]`: the right endpoint of edge `i`. -/
def edgeRight (edges : List (List ℕ)) (i : ℕ) : ℕ := (edges.getD i []).getD 1 0

/-- A list of edge indices forming a matching of the instance: valid,
duplicate-free, and pairwise disjoint on both sides. -/
def IsMatchingList (edges : List (List ℕ)) (M : List ℕ) : Prop :=
  M.Nodup ∧ (∀ i ∈ M, i < edges.length) ∧
    ∀ i ∈ M, ∀ j ∈ M, i ≠ j →
      edgeLeft edges i ≠ edgeLeft edges j ∧ edgeRight edges i ≠ edgeRight edges j

theorem getD_some_lt {α : Type} (l : List (Option α)) (i : ℕ) (a : α)
    (h : l.getD i none = some a) : i < l.length := by
  by_contra hle
  rw [List.getD_eq_default] at h
  · cases h
  · omega

theorem addGraphEdges_length :
    ∀ (es : List (List ℕ)) (i0 : ℕ) (g : List (List (ℕ × ℕ))),
      (addGraphEdges es i0 g).length = g.length
  | [], _, _ => rfl
  | e :: rest, i0, g => by
    rw [addGraphEdges, addGraphEdges_length rest]
    exact List.length_set ..

theorem mem_addGraphEdges :
    ∀ (es : List (List ℕ)) (i0 : ℕ) (g : List (List (ℕ × ℕ))),
      (∀ e ∈ es, e.getD 0 0 < g.length) → ∀ (v u ei : ℕ),
      ((u, ei) ∈ (addGraphEdges es i0 g).getD v [] ↔
        (u, ei) ∈ g.getD v [] ∨ ∃ j, j < es.length ∧ ei = i0 + j ∧
          (es.getD j []).getD 0 0 = v ∧ (es.getD j []).getD 1 0 = u)
  | [], i0, g, _, v, u, ei => by simp [addGraphEdges]
  | e :: rest, i0, g, hval, v, u, ei => by
    have hL : e.getD 0 0 < g.length := hval e (List.mem_cons_self _ _)
    have hval2 : ∀ e2 ∈ rest, e2.getD 0 0 <
        (g.set (e.getD 0 0) (g.getD (e.getD 0 0) [] ++ [(e.getD 1 0, i0)])).length := by
      intro e2 he2
      rw [List.length_set]
      exact hval e2 (List.mem_cons_of_mem _ he2)
    rw [addGraphEdges, mem_addGraphEdges rest (i0 + 1) _ hval2 v u ei]
    constructor
    · rintro (hmem | ⟨j, hj, hei, hjl, hjr⟩)
      · by_cases hv : e.getD 0 0 = v
        · subst hv
          rw [getD_set_eq _ _ _ _ hL, List.mem_append] at hmem
          rcases hmem with hmem | hmem
          · exact Or.inl hmem
          · have h2 := List.mem_singleton.mp hmem
            rw [Prod.mk.injEq] at h2
            obtain ⟨h2u, h2e⟩ := h2
            exact Or.inr ⟨0, by simp, by omega, by simp, by simp [h2u]⟩
        · rw [getD_set_ne _ _ _ _ _ hv] at hmem
          exact Or.inl hmem
      · exact Or.inr ⟨j + 1, by simpa using hj, by omega, by simpa using hjl,
          by simpa using hjr⟩
    · rintro (hmem | ⟨j, hj, hei, hjl, hjr⟩)
      · left
        by_cases hv : e.getD 0 0 = v
        · subst hv
          rw [getD_set_eq _ _ _ _ hL, List.mem_append]
          exact Or.inl hmem
        · rw [getD_set_ne _ _ _ _ _ hv]
          exact hmem
      · cases j with
        | zero =>
          left
          simp only [List.getD_cons_zero] at hjl hjr
          subst hjl
          rw [getD_set_eq _ _ _ _ hL, List.mem_append]
          right
          simp [hjr.symm, hei]
        | succ j2 =>
          right
          refine ⟨j2, by simpa using hj, by omega, by simpa using hjl,
            by simpa using hjr⟩

/-- The adjacency structure of `Kuhn2dMatchingAlgorithm::run`: `(u, ei)`
is listed under `v` iff edge `ei` exists and goes from `v` to `u`. -/
theorem mem_buildGraph (n : ℕ) (edges : List (List ℕ))
    (hval : ∀ i, i < edges.length → edgeLeft edges i < n ∧ edgeRight edges i < n)
    (v u ei : ℕ) :
    (u, ei) ∈ (buildGraph n edges).getD v [] ↔
      ei < edges.length ∧ edgeLeft edges ei = v ∧ edgeRight edges ei = u := by
  have hval2 : ∀ e ∈ edges, e.getD 0 0 < (List.replicate n ([] : List (ℕ × ℕ))).length := by
    intro e he
    rw [List.length_replicate]
    obtain ⟨j, hj, rfl⟩ := List.getElem_of_mem he
    have := (hval j hj).1
    rw [edgeLeft, List.getD_eq_getElem _ _ hj] at this
    exact this
  rw [buildGraph, mem_addGraphEdges edges 0 _ hval2 v u ei]
  rw [show (List.replicate n ([] : List (ℕ × ℕ))).getD v [] = [] from
    getD_replicate_self [] n v]
  simp only [List.not_mem_nil, false_or]
  constructor
  · rintro ⟨j, hj, hei, hjl, hjr⟩
    subst hei
    rw [Nat.zero_add]
    exact ⟨hj, hjl, hjr⟩
  · rintro ⟨hlt, hl, hr⟩
    exact ⟨ei, hlt, by omega, hl, hr⟩

/-- The invariant of the Kuhn solver's scratch state: well-sized arrays,
valid partner data behind every `match_vertex` entry, injectivity of
`match_vertex` (the selection is a matching), and every matched left
vertex has a partner. -/
structure KuhnInv (n : ℕ) (edges : List (List ℕ)) (st : KuhnState) : Prop where
  len_mv : st.match_vertex.length = n
  len_me : st.match_edge.length = n
  len_m : st.isMatched.length = n
  len_vis : st.isVisited.length = n
  partner : ∀ u w, st.match_vertex.getD u none = some w →
    u < n ∧ w < n ∧ st.isMatched.getD w false = true ∧
    ∃ ei, st.match_edge.getD u none = some ei ∧ ei < edges.length ∧
      edgeLeft edges ei = w ∧ edgeRight edges ei = u
  inj : ∀ u u' w, st.match_vertex.getD u none = some w →
    st.match_vertex.getD u' none = some w → u = u'
  matched_partner : ∀ w, w < n → st.isMatched.getD w false = true →
    ∃ u, st.match_vertex.getD u none = some w

/-- Number of unvisited left vertices (drives the dfs fuel argument). -/
def UnvisCount (n : ℕ) (st : KuhnState) : ℕ :=
  ((List.range n).filter (fun x => !st.isVisited.getD x false)).length

/-- Number of matched right vertices (the size of the current matching). -/
def MatchedCount (n : ℕ) (st : KuhnState) : ℕ :=
  ((List.range n).filter (fun u => (st.match_vertex.getD u none).isSome)).length

/-- Exploration certificate for the vertices a failing search visited:
each of their neighbours is matched to a visited vertex. -/
def NewExplored (graph : List (List (ℕ × ℕ))) (s s' : KuhnState) : Prop :=
  ∀ x, s'.isVisited.getD x false = true → s.isVisited.getD x false = false →
    ∀ p ∈ graph.getD x [], ∃ w, s'.match_vertex.getD p.1 none = some w ∧
      s'.isVisited.getD w false = true

theorem length_filter_update (l : List ℕ) (p q : ℕ → Bool) (v : ℕ)
    (hmem : v ∈ l) (hnd : l.Nodup) (hpv : p v = false) (hqv : q v = true)
    (hagree : ∀ x ∈ l, x ≠ v → q x = p x) :
    (l.filter q).length = (l.filter p).length + 1 := by
  induction l with
  | nil => cases hmem
  | cons a rest ih =>
    obtain ⟨hnda, hndr⟩ := List.nodup_cons.mp hnd
    by_cases hav : a = v
    · subst hav
      have hrest : rest.filter q = rest.filter p := by
        apply List.filter_congr
        intro x hx
        exact hagree x (List.mem_cons_of_mem _ hx) (fun hc => hnda (hc ▸ hx))
      rw [List.filter_cons, List.filter_cons, hpv, hqv, hrest]
      simp
    · have hmem2 : v ∈ rest := by
        rcases List.mem_cons.mp hmem with h | h
        · exact absurd h.symm hav
        · exact h
      have ih2 := ih hmem2 hndr
        (fun x hx hxv => hagree x (List.mem_cons_of_mem _ hx) hxv)
      rw [List.filter_cons, List.filter_cons,
        hagree a (List.mem_cons_self _ _) hav]
      cases hpa : p a <;> simp [ih2]

theorem length_filter_mono (l : List ℕ) (p q : ℕ → Bool)
    (h : ∀ x ∈ l, p x = true → q x = true) :
    (l.filter p).length ≤ (l.filter q).length := by
  induction l with
  | nil => simp
  | cons a rest ih =>
    have ih2 := ih (fun x hx => h x (List.mem_cons_of_mem _ hx))
    rw [List.filter_cons, List.filter_cons]
    cases hpa : p a
    · cases hqa : q a <;> simp <;> omega
    · rw [h a (List.mem_cons_self _ _) hpa]
      simpa using ih2

theorem UnvisCount_le (n : ℕ) (st : KuhnState) : UnvisCount n st ≤ n := by
  calc ((List.range n).filter _).length ≤ (List.range n).length :=
        List.length_filter_le _ _
    _ = n := List.length_range n

theorem MatchedCount_le (n : ℕ) (st : KuhnState) : MatchedCount n st ≤ n := by
  calc ((List.range n).filter _).length ≤ (List.range n).length :=
        List.length_filter_le _ _
    _ = n := List.length_range n

/-- Marking an unvisited vertex decrements the unvisited count. -/
theorem UnvisCount_mark (n : ℕ) (st : KuhnState) (v : ℕ) (hv : v < n)
    (hunvis : st.isVisited.getD v false = false)
    (hlen : v < st.isVisited.length) :
    UnvisCount n st =
      UnvisCount n { st with isVisited := st.isVisited.set v true } + 1 := by
  unfold UnvisCount
  exact length_filter_update (List.range n) _ _ v (List.mem_range.mpr hv)
    (List.nodup_range n)
    (by rw [getD_set_eq st.isVisited v true false hlen]; rfl)
    (by rw [hunvis]; rfl)
    (fun x _ hxv => by
      rw [getD_set_ne st.isVisited v x true false (fun hc => hxv hc.symm)])

/-- Newly matching an unmatched right vertex increments the matching
count. -/
theorem MatchedCount_set_new (n : ℕ) (st : KuhnState) (u w : ℕ) (hu : u < n)
    (hprev : st.match_vertex.getD u none = none)
    (hlen : u < st.match_vertex.length) (mv2 : List (Option ℕ))
    (hmv2 : mv2 = st.match_vertex.set u (some w)) :
    ((List.range n).filter (fun x => (mv2.getD x none).isSome)).length =
      MatchedCount n st + 1 := by
  subst hmv2
  unfold MatchedCount
  exact length_filter_update (List.range n) _ _ u (List.mem_range.mpr hu)
    (List.nodup_range n)
    (by rw [hprev]; rfl)
    (by rw [getD_set_eq st.match_vertex u (some w) none hlen]; rfl)
    (fun x _ hxu => by
      rw [getD_set_ne st.match_vertex u x (some w) none (fun hc => hxu hc.symm)])

/-- Re-pointing an already matched right vertex preserves the matching
count. -/
theorem MatchedCount_set_keep (n : ℕ) (st : KuhnState) (u w : ℕ)
    (hprev : (st.match_vertex.getD u none).isSome = true) :
    ((List.range n).filter
        (fun x => ((st.match_vertex.set u (some w)).getD x none).isSome)).length =
      MatchedCount n st := by
  unfold MatchedCount
  congr 1
  apply List.filter_congr
  intro x _
  by_cases hxu : x = u
  · subst hxu
    by_cases hlen : x < st.match_vertex.length
    · rw [getD_set_eq st.match_vertex x (some w) none hlen, hprev]; rfl
    · rw [List.set_eq_of_length_le (by omega)]
  · rw [getD_set_ne st.match_vertex u x (some w) none (fun hc => hxu hc.symm)]

theorem getD_set_true_mono (l : List Bool) (v x : ℕ)
    (h : l.getD x false = true) : (l.set v true).getD x false = true := by
  by_cases hxv : x = v
  · subst hxv
    by_cases hlen : x < l.length
    · rw [getD_set_eq _ _ _ _ hlen]
    · rw [List.set_eq_of_length_le (by omega)]
      exact h
  · rw [getD_set_ne _ _ _ _ _ (fun hc => hxv hc.symm)]
    exact h

theorem KuhnInv_congr {n : ℕ} {edges : List (List ℕ)} {s s' : KuhnState}
    (K : KuhnInv n edges s)
    (hmv : s'.match_vertex = s.match_vertex)
    (hme : s'.match_edge = s.match_edge)
    (hm : s'.isMatched = s.isMatched)
    (hvis : s'.isVisited.length = s.isVisited.length) :
    KuhnInv n edges s' := by
  constructor
  · rw [hmv]; exact K.len_mv
  · rw [hme]; exact K.len_me
  · rw [hm]; exact K.len_m
  · rw [hvis]; exact K.len_vis
  · rw [hmv, hme, hm]; exact K.partner
  · rw [hmv]; exact K.inj
  · rw [hmv, hm]; exact K.matched_partner

/-- What any dfs call preserves: array lengths and the visited marks. -/
structure DfsAlways (s s' : KuhnState) : Prop where
  len_mv : s'.match_vertex.length = s.match_vertex.length
  len_me : s'.match_edge.length = s.match_edge.length
  len_m : s'.isMatched.length = s.isMatched.length
  len_vis : s'.isVisited.length = s.isVisited.length
  vis_mono : ∀ x, s.isVisited.getD x false = true → s'.isVisited.getD x false = true

theorem DfsAlways.rfl' (s : KuhnState) : DfsAlways s s :=
  ⟨rfl, rfl, rfl, rfl, fun _ h => h⟩

theorem DfsAlways.trans {s1 s2 s3 : KuhnState}
    (a : DfsAlways s1 s2) (b : DfsAlways s2 s3) : DfsAlways s1 s3 :=
  ⟨b.len_mv.trans a.len_mv, b.len_me.trans a.len_me, b.len_m.trans a.len_m,
    b.len_vis.trans a.len_vis, fun x hx => b.vis_mono x (a.vis_mono x hx)⟩

theorem DfsAlways.unvis_le (n : ℕ) {s s' : KuhnState} (a : DfsAlways s s') :
    UnvisCount n s' ≤ UnvisCount n s := by
  apply length_filter_mono
  intro x _ hx
  simp only [Bool.not_eq_true'] at hx ⊢
  cases hvx : s.isVisited.getD x false
  · rfl
  · rw [a.vis_mono x hvx] at hx
    cases hx

/-- What a failing dfs call rooted at `v` guarantees. -/
structure DfsFail (graph : List (List (ℕ × ℕ))) (s s' : KuhnState) (v : ℕ) :
    Prop where
  mv_eq : s'.match_vertex = s.match_vertex
  me_eq : s'.match_edge = s.match_edge
  m_eq : s'.isMatched = s.isMatched
  vis_v : s'.isVisited.getD v false = true
  newexp : NewExplored graph s s'

/-- What a successful dfs call rooted at `v` guarantees: it augments the
matching along an alternating path ending at `v`.  `frozen` freezes slots
pointing to already-visited vertices (or to the root), `new_ptr` says
every rewired slot points to a newly visited vertex (or the root),
`to_root` provides the unique new pointer to the root, `quasi_inj` is
injectivity away from the root, and `count` is the net gain of one. -/
structure DfsOk (n : ℕ) (edges : List (List ℕ)) (s s' : KuhnState) (v : ℕ) :
    Prop where
  root_unvis : s.isVisited.getD v false = false
  root_vis : s'.isVisited.getD v false = true
  m_eq : s'.isMatched = s.isMatched.set v true
  frozen : ∀ u x, s.match_vertex.getD u none = some x →
    (s.isVisited.getD x false = true ∨ x = v) →
    s'.match_vertex.getD u none = some x ∧
      s'.match_edge.getD u none = s.match_edge.getD u none
  new_ptr : ∀ u, s'.match_vertex.getD u none ≠ s.match_vertex.getD u none →
    ∃ x, s'.match_vertex.getD u none = some x ∧
      ((s.isVisited.getD x false = false ∧ s'.isVisited.getD x false = true) ∨
        x = v)
  to_root : ∃ unew, s'.match_vertex.getD unew none = some v ∧
    s.match_vertex.getD unew none ≠ some v ∧
    ∀ u, s'.match_vertex.getD u none = some v →
      s.match_vertex.getD u none = some v ∨ u = unew
  quasi_inj : ∀ x u u', x ≠ v → s'.match_vertex.getD u none = some x →
    s'.match_vertex.getD u' none = some x → u = u'
  image_mono : ∀ x, (∃ u, s.match_vertex.getD u none = some x) →
    ∃ u, s'.match_vertex.getD u none = some x
  partner : ∀ u w, s'.match_vertex.getD u none = some w →
    u < n ∧ w < n ∧ s'.isMatched.getD w false = true ∧
    ∃ ei, s'.match_edge.getD u none = some ei ∧ ei < edges.length ∧
      edgeLeft edges ei = w ∧ edgeRight edges ei = u
  count : MatchedCount n s' = MatchedCount n s + 1

theorem MatchedCount_congr (n : ℕ) {s s' : KuhnState}
    (h : s'.match_vertex = s.match_vertex) :
    MatchedCount n s' = MatchedCount n s := by
  unfold MatchedCount
  rw [h]

/-- What a successful neighbour scan of the (already marked) vertex `v`
guarantees; like `DfsOk` but relative to the post-mark state. -/
structure NeighOk (n : ℕ) (edges : List (List ℕ)) (s s' : KuhnState)
    (v : ℕ) : Prop where
  m_eq : s'.isMatched = s.isMatched.set v true
  frozen : ∀ u x, s.match_vertex.getD u none = some x →
    s.isVisited.getD x false = true →
    s'.match_vertex.getD u none = some x ∧
      s'.match_edge.getD u none = s.match_edge.getD u none
  new_ptr : ∀ u, s'.match_vertex.getD u none ≠ s.match_vertex.getD u none →
    ∃ x, s'.match_vertex.getD u none = some x ∧
      ((s.isVisited.getD x false = false ∧ s'.isVisited.getD x false = true) ∨
        x = v)
  to_root : ∃ unew, s'.match_vertex.getD unew none = some v ∧
    s.match_vertex.getD unew none ≠ some v ∧
    ∀ u, s'.match_vertex.getD u none = some v →
      s.match_vertex.getD u none = some v ∨ u = unew
  quasi_inj : ∀ x u u', x ≠ v → s'.match_vertex.getD u none = some x →
    s'.match_vertex.getD u' none = some x → u = u'
  image_mono : ∀ x, (∃ u, s.match_vertex.getD u none = some x) →
    ∃ u, s'.match_vertex.getD u none = some x
  partner : ∀ u w, s'.match_vertex.getD u none = some w →
    u < n ∧ w < n ∧ s'.isMatched.getD w false = true ∧
    ∃ ei, s'.match_edge.getD u none = some ei ∧ ei < edges.length ∧
      edgeLeft edges ei = w ∧ edgeRight edges ei = u
  count : MatchedCount n s' = MatchedCount n s + 1

/-- Specification of the neighbour scan `dfsNeighbors`, given a
specification `hrec` for the recursive dfs at one lower fuel. -/
theorem dfsNeighbors_spec (n : ℕ) (edges : List (List ℕ))
    (graph : List (List (ℕ × ℕ)))
    (hGr : ∀ v u ei, (u, ei) ∈ graph.getD v [] ↔
      ei < edges.length ∧ edgeLeft edges ei = v ∧ edgeRight edges ei = u)
    (hval : ∀ i, i < edges.length →
      edgeLeft edges i < n ∧ edgeRight edges i < n)
    (fuel : ℕ) (rec : KuhnState → ℕ → KuhnState × Bool)
    (hrec : ∀ (s : KuhnState) (w : ℕ), KuhnInv n edges s → w < n →
      UnvisCount n s < fuel →
      DfsAlways s (rec s w).1 ∧
      ((rec s w).2 = false → DfsFail graph s (rec s w).1 w) ∧
      ((rec s w).2 = true → DfsOk n edges s (rec s w).1 w))
    (v : ℕ) (hv : v < n) :
    ∀ (l : List (ℕ × ℕ)) (s : KuhnState),
      KuhnInv n edges s → UnvisCount n s < fuel →
      (∀ p ∈ l, p ∈ graph.getD v []) →
      s.isVisited.getD v false = true →
      DfsAlways s (dfsNeighbors rec v l s).1 ∧
      ((dfsNeighbors rec v l s).2 = false →
        (dfsNeighbors rec v l s).1.match_vertex = s.match_vertex ∧
        (dfsNeighbors rec v l s).1.match_edge = s.match_edge ∧
        (dfsNeighbors rec v l s).1.isMatched = s.isMatched ∧
        NewExplored graph s (dfsNeighbors rec v l s).1 ∧
        ∀ p ∈ l, ∃ w, s.match_vertex.getD p.1 none = some w ∧
          (dfsNeighbors rec v l s).1.isVisited.getD w false = true) ∧
      ((dfsNeighbors rec v l s).2 = true →
        NeighOk n edges s (dfsNeighbors rec v l s).1 v)
  | [], s => by
    intro K hfuel hl hvvis
    have heq : dfsNeighbors rec v [] s = (s, false) := rfl
    rw [heq]
    refine ⟨DfsAlways.rfl' s, ?_, ?_⟩
    · intro _
      refine ⟨rfl, rfl, rfl, ?_, ?_⟩
      · intro x hx1 hx2
        have hx1b : s.isVisited.getD x false = true := hx1
        rw [hx1b] at hx2
        cases hx2
      · intro p hp
        cases hp
    · intro hcon
      cases hcon
  | (u, ei) :: rest, s => by
    intro K hfuel hl hvvis
    have hp : (u, ei) ∈ graph.getD v [] := hl (u, ei) (List.mem_cons_self _ _)
    obtain ⟨hei, hlft, hrgt⟩ := (hGr v u ei).mp hp
    have hun : u < n := hrgt ▸ (hval ei hei).2
    rcases hmv : s.match_vertex.getD u none with _ | w
    · -- unmatched neighbour: commit immediately
      have heq : dfsNeighbors rec v ((u, ei) :: rest) s =
          (kuhnCommit s u ei v, true) := by
        simp only [dfsNeighbors, hmv]
      rw [heq]
      have hulen : u < s.match_vertex.length := by rw [K.len_mv]; exact hun
      have huelen : u < s.match_edge.length := by rw [K.len_me]; exact hun
      have hvlen : v < s.isMatched.length := by rw [K.len_m]; exact hv
      have hcv : (kuhnCommit s u ei v).match_vertex =
          s.match_vertex.set u (some v) := rfl
      have hce : (kuhnCommit s u ei v).match_edge =
          s.match_edge.set u (some ei) := rfl
      have hcm : (kuhnCommit s u ei v).isMatched = s.isMatched.set v true := rfl
      refine ⟨⟨?_, ?_, ?_, rfl, fun x hx => hx⟩, ?_, ?_⟩
      · rw [hcv]; exact List.length_set ..
      · rw [hce]; exact List.length_set ..
      · rw [hcm]; exact List.length_set ..
      · intro hcon
        cases hcon
      · intro _
        refine ⟨hcm, ?_, ?_, ?_, ?_, ?_, ?_, ?_⟩
        · -- frozen
          intro u2 x hmv2 _
          have hne : u ≠ u2 := by
            intro hc
            rw [← hc, hmv] at hmv2
            cases hmv2
          constructor
          · rw [hcv, getD_set_ne _ _ _ _ _ hne]
            exact hmv2
          · rw [hce, getD_set_ne _ _ _ _ _ hne]
        · -- new_ptr
          intro u2 hch
          by_cases hu2 : u2 = u
          · subst hu2
            refine ⟨v, ?_, Or.inr rfl⟩
            rw [hcv, getD_set_eq _ _ _ _ hulen]
          · exact absurd (by rw [hcv,
              getD_set_ne _ _ _ _ _ (fun hc => hu2 hc.symm)]) hch
        · -- to_root
          refine ⟨u, ?_, ?_, ?_⟩
          · rw [hcv, getD_set_eq _ _ _ _ hulen]
          · rw [hmv]
            intro hc
            cases hc
          · intro u2 h2
            by_cases hu2 : u2 = u
            · exact Or.inr hu2
            · left
              rw [hcv, getD_set_ne _ _ _ _ _ (fun hc => hu2 hc.symm)] at h2
              exact h2
        · -- quasi_inj
          intro x u1 u2 hxv h1 h2
          have key : ∀ u3, (kuhnCommit s u ei v).match_vertex.getD u3 none =
              some x → s.match_vertex.getD u3 none = some x := by
            intro u3 h3
            rw [hcv] at h3
            by_cases hu3 : u3 = u
            · subst hu3
              rw [getD_set_eq _ _ _ _ hulen] at h3
              cases h3
              exact absurd rfl hxv
            · rw [getD_set_ne _ _ _ _ _ (fun hc => hu3 hc.symm)] at h3
              exact h3
          exact K.inj u1 u2 x (key u1 h1) (key u2 h2)
        · -- image_mono
          rintro x ⟨u2, h2⟩
          have hne : u ≠ u2 := by
            intro hc
            rw [← hc, hmv] at h2
            cases h2
          refine ⟨u2, ?_⟩
          rw [hcv, getD_set_ne _ _ _ _ _ hne]
          exact h2
        · -- partner
          intro u2 w2 h2
          rw [hcv] at h2
          by_cases hu2 : u2 = u
          · subst hu2
            rw [getD_set_eq _ _ _ _ hulen] at h2
            cases h2
            refine ⟨hun, hv, ?_, ei, ?_, hei, hlft, hrgt⟩
            · rw [hcm, getD_set_eq _ _ _ _ hvlen]
            · rw [hce, getD_set_eq _ _ _ _ huelen]
          · rw [getD_set_ne _ _ _ _ _ (fun hc => hu2 hc.symm)] at h2
            obtain ⟨ha, hb, hc2, ei2, hd, he, hf, hg⟩ := K.partner u2 w2 h2
            refine ⟨ha, hb, ?_, ei2, ?_, he, hf, hg⟩
            · rw [hcm]
              exact getD_set_true_mono _ _ _ hc2
            · rw [hce, getD_set_ne _ _ _ _ _ (fun hc => hu2 hc.symm)]
              exact hd
        · -- count
          exact MatchedCount_set_new n s u v hun hmv hulen _ rfl
    · -- matched neighbour: recurse on its partner first
      obtain ⟨hu_lt, hw_lt, hmw, -⟩ := K.partner u w hmv
      obtain ⟨A1, F1, O1⟩ := hrec s w K hw_lt hfuel
      cases hr2 : (rec s w).2 with
      | true =>
        have O := O1 hr2
        have heq : dfsNeighbors rec v ((u, ei) :: rest) s =
            (kuhnCommit (rec s w).1 u ei v, true) := by
          simp only [dfsNeighbors, hmv, hr2, if_true]
        rw [heq]
        have hwv : w ≠ v := by
          intro hc
          have hx := O.root_unvis
          rw [hc, hvvis] at hx
          cases hx
        have hfr := O.frozen u w hmv (Or.inr rfl)
        have hulen1 : u < (rec s w).1.match_vertex.length := by
          rw [A1.len_mv, K.len_mv]; exact hun
        have huelen1 : u < (rec s w).1.match_edge.length := by
          rw [A1.len_me, K.len_me]; exact hun
        have hvlen1 : v < (rec s w).1.isMatched.length := by
          rw [A1.len_m, K.len_m]; exact hv
        have hcv : (kuhnCommit (rec s w).1 u ei v).match_vertex =
            (rec s w).1.match_vertex.set u (some v) := rfl
        have hce : (kuhnCommit (rec s w).1 u ei v).match_edge =
            (rec s w).1.match_edge.set u (some ei) := rfl
        have hcm : (kuhnCommit (rec s w).1 u ei v).isMatched =
            (rec s w).1.isMatched.set v true := rfl
        refine ⟨A1.trans ⟨?_, ?_, ?_, rfl, fun x hx => hx⟩, ?_, ?_⟩
        · rw [hcv]; exact List.length_set ..
        · rw [hce]; exact List.length_set ..
        · rw [hcm]; exact List.length_set ..
        · intro hcon
          cases hcon
        · intro _
          refine ⟨?_, ?_, ?_, ?_, ?_, ?_, ?_, ?_⟩
          · -- m_eq
            rw [hcm, O.m_eq, set_eq_self_of_getD_true _ _ hmw]
          · -- frozen
            intro u2 x hmv2 hvx
            have hxw : x ≠ w := by
              intro hc
              have hx := O.root_unvis
              rw [← hc, hvx] at hx
              cases hx
            have hu2u : u ≠ u2 := by
              intro hc
              rw [← hc, hmv] at hmv2
              exact hxw (Option.some.inj hmv2).symm
            have hO2 := O.frozen u2 x hmv2 (Or.inl hvx)
            constructor
            · rw [hcv, getD_set_ne _ _ _ _ _ hu2u]
              exact hO2.1
            · rw [hce, getD_set_ne _ _ _ _ _ hu2u]
              exact hO2.2
          · -- new_ptr
            intro u2 hch
            by_cases hu2 : u2 = u
            · subst hu2
              refine ⟨v, ?_, Or.inr rfl⟩
              rw [hcv, getD_set_eq _ _ _ _ hulen1]
            · rw [hcv, getD_set_ne _ _ _ _ _ (fun hc => hu2 hc.symm)] at hch ⊢
              obtain ⟨x, hx1, hx2⟩ := O.new_ptr u2 hch
              refine ⟨x, hx1, ?_⟩
              rcases hx2 with ⟨hxa, hxb⟩ | hxc
              · exact Or.inl ⟨hxa, hxb⟩
              · subst hxc
                exact Or.inl ⟨O.root_unvis, O.root_vis⟩
          · -- to_root
            refine ⟨u, ?_, ?_, ?_⟩
            · rw [hcv, getD_set_eq _ _ _ _ hulen1]
            · rw [hmv]
              intro hc
              exact hwv (Option.some.inj hc)
            · intro u2 h2
              by_cases hu2 : u2 = u
              · exact Or.inr hu2
              · rw [hcv, getD_set_ne _ _ _ _ _ (fun hc => hu2 hc.symm)] at h2
                by_cases hch : (rec s w).1.match_vertex.getD u2 none =
                    s.match_vertex.getD u2 none
                · left
                  rw [← hch]
                  exact h2
                · obtain ⟨x, hx1, hx2⟩ := O.new_ptr u2 hch
                  rw [h2] at hx1
                  cases Option.some.inj hx1
                  rcases hx2 with ⟨hxa, -⟩ | hxc
                  · rw [hvvis] at hxa
                    cases hxa
                  · exact absurd hxc.symm hwv
          · -- quasi_inj
            intro x u1 u2 hxv h1 h2
            have key : ∀ u3, (kuhnCommit (rec s w).1 u ei v).match_vertex.getD
                u3 none = some x → u3 ≠ u ∧
                (rec s w).1.match_vertex.getD u3 none = some x := by
              intro u3 h3
              by_cases hu3 : u3 = u
              · subst hu3
                rw [hcv, getD_set_eq _ _ _ _ hulen1] at h3
                exact absurd (Option.some.inj h3).symm hxv
              · rw [hcv, getD_set_ne _ _ _ _ _ (fun hc => hu3 hc.symm)] at h3
                exact ⟨hu3, h3⟩
            obtain ⟨hu1, h1'⟩ := key u1 h1
            obtain ⟨hu2, h2'⟩ := key u2 h2
            by_cases hxw : x = w
            · subst hxw
              obtain ⟨unw, hwa, hwb, hwc⟩ := O.to_root
              rcases hwc u1 h1' with h5 | h5
              · exact absurd (K.inj u1 u x h5 hmv) hu1
              · rcases hwc u2 h2' with h6 | h6
                · exact absurd (K.inj u2 u x h6 hmv) hu2
                · rw [h5, h6]
            · exact O.quasi_inj x u1 u2 hxw h1' h2'
          · -- image_mono
            rintro x ⟨u2, h2⟩
            obtain ⟨u3, h3⟩ := O.image_mono x ⟨u2, h2⟩
            by_cases hu3 : u3 = u
            · rw [hu3, hfr.1] at h3
              cases Option.some.inj h3
              obtain ⟨unw, hwa, hwb, -⟩ := O.to_root
              have hwu : unw ≠ u := by
                intro hc
                rw [hc, hmv] at hwb
                exact hwb rfl
              refine ⟨unw, ?_⟩
              rw [hcv, getD_set_ne _ _ _ _ _ (fun hc => hwu hc.symm)]
              exact hwa
            · refine ⟨u3, ?_⟩
              rw [hcv, getD_set_ne _ _ _ _ _ (fun hc => hu3 hc.symm)]
              exact h3
          · -- partner
            intro u2 w2 h2
            by_cases hu2 : u2 = u
            · subst hu2
              rw [hcv, getD_set_eq _ _ _ _ hulen1] at h2
              cases Option.some.inj h2
              refine ⟨hun, hv, ?_, ei, ?_, hei, hlft, hrgt⟩
              · rw [hcm, getD_set_eq _ _ _ _ hvlen1]
              · rw [hce, getD_set_eq _ _ _ _ huelen1]
            · rw [hcv, getD_set_ne _ _ _ _ _ (fun hc => hu2 hc.symm)] at h2
              obtain ⟨ha, hb, hc2, ei2, hd, he, hf, hg⟩ := O.partner u2 w2 h2
              refine ⟨ha, hb, ?_, ei2, ?_, he, hf, hg⟩
              · rw [hcm]
                exact getD_set_true_mono _ _ _ hc2
              · rw [hce, getD_set_ne _ _ _ _ _ (fun hc => hu2 hc.symm)]
                exact hd
          · -- count
            exact (MatchedCount_set_keep n (rec s w).1 u v
              (by rw [hfr.1]; rfl)).trans O.count
      | false =>
        have F := F1 hr2
        have heq : dfsNeighbors rec v ((u, ei) :: rest) s =
            dfsNeighbors rec v rest (rec s w).1 := by
          simp only [dfsNeighbors, hmv, hr2]
          rfl
        rw [heq]
        have K1 : KuhnInv n edges (rec s w).1 :=
          KuhnInv_congr K F.mv_eq F.me_eq F.m_eq A1.len_vis
        have hfuel1 : UnvisCount n (rec s w).1 < fuel :=
          lt_of_le_of_lt (A1.unvis_le n) hfuel
        have hl1 : ∀ p ∈ rest, p ∈ graph.getD v [] :=
          fun p hp2 => hl p (List.mem_cons_of_mem _ hp2)
        have hvvis1 : (rec s w).1.isVisited.getD v false = true :=
          A1.vis_mono v hvvis
        obtain ⟨A2, F2, O2⟩ := dfsNeighbors_spec n edges graph hGr hval fuel
          rec hrec v hv rest (rec s w).1 K1 hfuel1 hl1 hvvis1
        refine ⟨A1.trans A2, ?_, ?_⟩
        · intro h2
          obtain ⟨e1, e2, e3, ne2, cert2⟩ := F2 h2
          refine ⟨e1.trans F.mv_eq, e2.trans F.me_eq, e3.trans F.m_eq, ?_, ?_⟩
          · intro x hx1 hx2
            cases hx3 : (rec s w).1.isVisited.getD x false with
            | true =>
              intro p hp2
              obtain ⟨w2, hw2a, hw2b⟩ := F.newexp x hx3 hx2 p hp2
              refine ⟨w2, ?_, A2.vis_mono w2 hw2b⟩
              rw [e1.trans F.mv_eq, ← F.mv_eq]
              exact hw2a
            | false => exact ne2 x hx1 hx3
          · intro p hp2
            rcases List.mem_cons.mp hp2 with rfl | hp3
            · exact ⟨w, hmv, A2.vis_mono w F.vis_v⟩
            · obtain ⟨w2, hw2a, hw2b⟩ := cert2 p hp3
              rw [F.mv_eq] at hw2a
              exact ⟨w2, hw2a, hw2b⟩
        · intro h2
          have N2 := O2 h2
          refine ⟨?_, ?_, ?_, ?_, N2.quasi_inj, ?_, N2.partner, ?_⟩
          · rw [N2.m_eq, F.m_eq]
          · intro u2 x hmv2 hvx
            have h3 := N2.frozen u2 x (by rw [F.mv_eq]; exact hmv2)
              (A1.vis_mono x hvx)
            exact ⟨h3.1, by rw [h3.2, F.me_eq]⟩
          · intro u2 hch
            have hch1 : (dfsNeighbors rec v rest (rec s w).1).1.match_vertex.getD
                u2 none ≠ (rec s w).1.match_vertex.getD u2 none := by
              rw [F.mv_eq]
              exact hch
            obtain ⟨x, hx1, hx2⟩ := N2.new_ptr u2 hch1
            refine ⟨x, hx1, ?_⟩
            rcases hx2 with ⟨hxa, hxb⟩ | hxc
            · refine Or.inl ⟨?_, hxb⟩
              cases hsx : s.isVisited.getD x false with
              | false => rfl
              | true =>
                rw [A1.vis_mono x hsx] at hxa
                cases hxa
            · exact Or.inr hxc
          · obtain ⟨unew, ha, hb, hc⟩ := N2.to_root
            refine ⟨unew, ha, by rw [← F.mv_eq]; exact hb, ?_⟩
            intro u2 h4
            rcases hc u2 h4 with h5 | h5
            · left
              rw [← F.mv_eq]
              exact h5
            · exact Or.inr h5
          · rintro x ⟨u2, h2'⟩
            exact N2.image_mono x ⟨u2, by rw [F.mv_eq]; exact h2'⟩
          · rw [N2.count, MatchedCount_congr n F.mv_eq]

/-- Specification of the recursive `dfs` lambda
(src/src/matroid_intersection.cpp:61-74): on a valid state whose unvisited
count is below the fuel, a call either fails (leaving the matching arrays
untouched, with the root visited and an exploration certificate) or
augments the matching by one along an alternating path ending at the
root. -/
theorem dfs_spec (n : ℕ) (edges : List (List ℕ))
    (graph : List (List (ℕ × ℕ)))
    (hGr : ∀ v u ei, (u, ei) ∈ graph.getD v [] ↔
      ei < edges.length ∧ edgeLeft edges ei = v ∧ edgeRight edges ei = u)
    (hval : ∀ i, i < edges.length →
      edgeLeft edges i < n ∧ edgeRight edges i < n) :
    ∀ (fuel : ℕ) (st : KuhnState) (v : ℕ), KuhnInv n edges st → v < n →
      UnvisCount n st < fuel →
      DfsAlways st (dfs graph fuel st v).1 ∧
      ((dfs graph fuel st v).2 = false →
        DfsFail graph st (dfs graph fuel st v).1 v) ∧
      ((dfs graph fuel st v).2 = true →
        DfsOk n edges st (dfs graph fuel st v).1 v) := by
  intro fuel
  induction fuel with
  | zero =>
    intro st v _ _ hfuel
    omega
  | succ fuel ih =>
    intro st v K hv hfuel
    cases hvis : st.isVisited.getD v false with
    | true =>
      have heq : dfs graph (fuel + 1) st v = (st, false) := by
        have h0 : dfs graph (fuel + 1) st v =
            if st.isVisited.getD v false then (st, false)
            else dfsNeighbors (dfs graph fuel) v (graph.getD v [])
              { st with isVisited := st.isVisited.set v true } := rfl
        rw [h0, hvis]
        rfl
      rw [heq]
      refine ⟨DfsAlways.rfl' st, ?_, ?_⟩
      · intro _
        refine ⟨rfl, rfl, rfl, hvis, ?_⟩
        intro x hx1 hx2
        have hx1b : st.isVisited.getD x false = true := hx1
        rw [hx1b] at hx2
        cases hx2
      · intro hcon
        cases hcon
    | false =>
      have hvlen : v < st.isVisited.length := by rw [K.len_vis]; exact hv
      set st1 : KuhnState := { st with isVisited := st.isVisited.set v true }
        with hst1
      have heq : dfs graph (fuel + 1) st v =
          dfsNeighbors (dfs graph fuel) v (graph.getD v []) st1 := by
        have h0 : dfs graph (fuel + 1) st v =
            if st.isVisited.getD v false then (st, false)
            else dfsNeighbors (dfs graph fuel) v (graph.getD v []) st1 := rfl
        rw [h0, hvis]
        rfl
      have K1 : KuhnInv n edges st1 :=
        KuhnInv_congr K rfl rfl rfl (List.length_set ..)
      have hcount : UnvisCount n st1 < fuel := by
        have hm := UnvisCount_mark n st v hv hvis hvlen
        rw [← hst1] at hm
        omega
      have hvvis1 : st1.isVisited.getD v false = true := by
        show (st.isVisited.set v true).getD v false = true
        exact getD_set_eq _ _ _ _ hvlen
      obtain ⟨A, Ffail, FOk⟩ := dfsNeighbors_spec n edges graph hGr hval fuel
        (dfs graph fuel) ih v hv (graph.getD v []) st1 K1 hcount
        (fun p hp => hp) hvvis1
      rw [heq]
      have Astep : DfsAlways st st1 := by
        refine ⟨rfl, rfl, rfl, ?_, ?_⟩
        · show (st.isVisited.set v true).length = st.isVisited.length
          exact List.length_set ..
        · intro x hx
          show (st.isVisited.set v true).getD x false = true
          exact getD_set_true_mono _ _ _ hx
      refine ⟨Astep.trans A, ?_, ?_⟩
      · intro h2
        obtain ⟨e1, e2, e3, ne, cert⟩ := Ffail h2
        refine ⟨e1, e2, e3, A.vis_mono v hvvis1, ?_⟩
        intro x hx1 hx2
        by_cases hxv : x = v
        · subst hxv
          intro p hp
          obtain ⟨w, hw1, hw2⟩ := cert p hp
          exact ⟨w, by rw [e1]; exact hw1, hw2⟩
        · have hx2b : st1.isVisited.getD x false = false := by
            show (st.isVisited.set v true).getD x false = false
            rw [getD_set_ne _ _ _ _ _ (fun hc => hxv hc.symm)]
            exact hx2
          exact ne x hx1 hx2b
      · intro h2
        have N := FOk h2
        refine ⟨hvis, A.vis_mono v hvvis1, N.m_eq, ?_, ?_, N.to_root,
          N.quasi_inj, N.image_mono, N.partner, N.count⟩
        · intro u x hmvx hvx
          have hvx1 : st1.isVisited.getD x false = true := by
            show (st.isVisited.set v true).getD x false = true
            rcases hvx with h | rfl
            · exact getD_set_true_mono _ _ _ h
            · exact getD_set_eq _ _ _ _ hvlen
          exact N.frozen u x hmvx hvx1
        · intro u hch
          obtain ⟨x, hx1, hx2⟩ := N.new_ptr u hch
          refine ⟨x, hx1, ?_⟩
          rcases hx2 with ⟨hxa, hxb⟩ | hxc
          · left
            refine ⟨?_, hxb⟩
            cases hsx : st.isVisited.getD x false with
            | false => rfl
            | true =>
              have hxt : st1.isVisited.getD x false = true := by
                show (st.isVisited.set v true).getD x false = true
                exact getD_set_true_mono _ _ _ hsx
              rw [hxt] at hxa
              cases hxa
          · exact Or.inr hxc

/-- A successful dfs rooted at an unmatched vertex preserves the solver
invariant. -/
theorem KuhnInv_after_dfsOk {n : ℕ} {edges : List (List ℕ)}
    {st st' : KuhnState} {v : ℕ} (K : KuhnInv n edges st)
    (A : DfsAlways st st') (O : DfsOk n edges st st' v)
    (hunm : st.isMatched.getD v false = false) : KuhnInv n edges st' := by
  have hnotv : ∀ u, st.match_vertex.getD u none ≠ some v := by
    intro u hc
    have hm := (K.partner u v hc).2.2.1
    rw [hunm] at hm
    cases hm
  constructor
  · rw [A.len_mv]; exact K.len_mv
  · rw [A.len_me]; exact K.len_me
  · rw [A.len_m]; exact K.len_m
  · rw [A.len_vis]; exact K.len_vis
  · exact O.partner
  · intro u u' x h h'
    by_cases hxv : x = v
    · subst hxv
      obtain ⟨unew, hna, hnb, hnc⟩ := O.to_root
      rcases hnc u h with h1 | h1
      · exact absurd h1 (hnotv u)
      · rcases hnc u' h' with h2 | h2
        · exact absurd h2 (hnotv u')
        · rw [h1, h2]
    · exact O.quasi_inj x u u' hxv h h'
  · intro w hw hmw
    by_cases hwv : w = v
    · subst hwv
      obtain ⟨unew, hna, -, -⟩ := O.to_root
      exact ⟨unew, hna⟩
    · have hmw_old : st.isMatched.getD w false = true := by
        rw [O.m_eq] at hmw
        rwa [getD_set_ne _ _ _ _ _ (fun hc => hwv hc.symm)] at hmw
      obtain ⟨u, hu⟩ := K.matched_partner w hw hmw_old
      exact O.image_mono w ⟨u, hu⟩

/-- Specification of one pass of the outer Kuhn loop
(src/src/matroid_intersection.cpp:80-83): the invariant is preserved, the
matching only grows (strictly if the pass reports a success), and a pass
reporting no success leaves the matching arrays untouched, carries an
exploration certificate, and has visited every unmatched vertex it
processed. -/
theorem kuhnPass_spec (n : ℕ) (edges : List (List ℕ))
    (graph : List (List (ℕ × ℕ)))
    (hGr : ∀ v u ei, (u, ei) ∈ graph.getD v [] ↔
      ei < edges.length ∧ edgeLeft edges ei = v ∧ edgeRight edges ei = u)
    (hval : ∀ i, i < edges.length →
      edgeLeft edges i < n ∧ edgeRight edges i < n)
    (dfsFuel : ℕ) (hdf : n < dfsFuel) :
    ∀ (vs : List ℕ) (st : KuhnState) (any : Bool), KuhnInv n edges st →
      (∀ v ∈ vs, v < n) →
      KuhnInv n edges (kuhnPass graph dfsFuel vs st any).1 ∧
      DfsAlways st (kuhnPass graph dfsFuel vs st any).1 ∧
      MatchedCount n st ≤ MatchedCount n (kuhnPass graph dfsFuel vs st any).1 ∧
      (any = true → (kuhnPass graph dfsFuel vs st any).2 = true) ∧
      ((kuhnPass graph dfsFuel vs st any).2 = true → any = false →
        MatchedCount n st + 1 ≤
          MatchedCount n (kuhnPass graph dfsFuel vs st any).1) ∧
      ((kuhnPass graph dfsFuel vs st any).2 = false →
        (kuhnPass graph dfsFuel vs st any).1.match_vertex = st.match_vertex ∧
        (kuhnPass graph dfsFuel vs st any).1.match_edge = st.match_edge ∧
        (kuhnPass graph dfsFuel vs st any).1.isMatched = st.isMatched ∧
        NewExplored graph st (kuhnPass graph dfsFuel vs st any).1 ∧
        ∀ v ∈ vs, st.isMatched.getD v false = false →
          (kuhnPass graph dfsFuel vs st any).1.isVisited.getD v false = true)
  | [], st, any => by
    intro K _
    have heq : kuhnPass graph dfsFuel [] st any = (st, any) := rfl
    rw [heq]
    refine ⟨K, DfsAlways.rfl' st, le_refl _, fun h => h, ?_, ?_⟩
    · intro h1 h2
      have h1b : any = true := h1
      rw [h2] at h1b
      cases h1b
    · intro _
      refine ⟨rfl, rfl, rfl, ?_, ?_⟩
      · intro x hx1 hx2
        have hx1b : st.isVisited.getD x false = true := hx1
        rw [hx1b] at hx2
        cases hx2
      · intro v hv
        cases hv
  | v :: rest, st, any => by
    intro K hvs
    have hvn : v < n := hvs v (List.mem_cons_self _ _)
    have hrest : ∀ x ∈ rest, x < n :=
      fun x hx => hvs x (List.mem_cons_of_mem _ hx)
    have h0 : kuhnPass graph dfsFuel (v :: rest) st any =
        if !st.isVisited.getD v false && !st.isMatched.getD v false then
          kuhnPass graph dfsFuel rest (dfs graph dfsFuel st v).1
            (any || (dfs graph dfsFuel st v).2)
        else kuhnPass graph dfsFuel rest st any := rfl
    cases hcond : (!st.isVisited.getD v false && !st.isMatched.getD v false) with
    | false =>
      have heq : kuhnPass graph dfsFuel (v :: rest) st any =
          kuhnPass graph dfsFuel rest st any := by
        rw [h0, hcond]
        rfl
      rw [heq]
      obtain ⟨iK, iA, iC, iF, iS, iN⟩ :=
        kuhnPass_spec n edges graph hGr hval dfsFuel hdf rest st any K hrest
      refine ⟨iK, iA, iC, iF, iS, ?_⟩
      intro h2
      obtain ⟨e1, e2, e3, ne, hvisd⟩ := iN h2
      refine ⟨e1, e2, e3, ne, ?_⟩
      intro x hx hmx
      rcases List.mem_cons.mp hx with rfl | hx2
      · have hvis : st.isVisited.getD x false = true := by
          cases hv2 : st.isVisited.getD x false with
          | true => rfl
          | false =>
            rw [hv2, hmx] at hcond
            cases hcond
        exact iA.vis_mono x hvis
      · exact hvisd x hx2 hmx
    | true =>
      have hvis : st.isVisited.getD v false = false := by
        cases hv2 : st.isVisited.getD v false with
        | false => rfl
        | true =>
          rw [hv2] at hcond
          cases hcond
      have hunm : st.isMatched.getD v false = false := by
        cases hm2 : st.isMatched.getD v false with
        | false => rfl
        | true =>
          rw [hm2] at hcond
          simp at hcond
      have heq : kuhnPass graph dfsFuel (v :: rest) st any =
          kuhnPass graph dfsFuel rest (dfs graph dfsFuel st v).1
            (any || (dfs graph dfsFuel st v).2) := by
        rw [h0, hcond]
        rfl
      rw [heq]
      have hfuel : UnvisCount n st < dfsFuel :=
        lt_of_le_of_lt (UnvisCount_le n st) hdf
      obtain ⟨dA, dF, dO⟩ := dfs_spec n edges graph hGr hval dfsFuel st v K
        hvn hfuel
      cases hd2 : (dfs graph dfsFuel st v).2 with
      | true =>
        have O := dO hd2
        have Kd : KuhnInv n edges (dfs graph dfsFuel st v).1 :=
          KuhnInv_after_dfsOk K dA O hunm
        obtain ⟨iK, iA, iC, iF, iS, iN⟩ := kuhnPass_spec n edges graph hGr
          hval dfsFuel hdf rest (dfs graph dfsFuel st v).1
          (any || true) Kd hrest
        have hflag : (kuhnPass graph dfsFuel rest (dfs graph dfsFuel st v).1
            (any || true)).2 = true := by
          apply iF
          rw [Bool.or_true]
        refine ⟨iK, dA.trans iA, ?_, fun _ => hflag, ?_, ?_⟩
        · calc MatchedCount n st ≤ MatchedCount n st + 1 := Nat.le_succ _
            _ = MatchedCount n (dfs graph dfsFuel st v).1 := O.count.symm
            _ ≤ _ := iC
        · intro _ _
          calc MatchedCount n st + 1
              = MatchedCount n (dfs graph dfsFuel st v).1 := O.count.symm
            _ ≤ _ := iC
        · intro h2
          rw [hflag] at h2
          cases h2
      | false =>
        have F := dF hd2
        obtain ⟨iK, iA, iC, iF, iS, iN⟩ := kuhnPass_spec n edges graph hGr
          hval dfsFuel hdf rest (dfs graph dfsFuel st v).1
          (any || false) (KuhnInv_congr K F.mv_eq F.me_eq F.m_eq dA.len_vis)
          hrest
        have hceq : MatchedCount n (dfs graph dfsFuel st v).1 =
            MatchedCount n st := MatchedCount_congr n F.mv_eq
        refine ⟨iK, dA.trans iA, ?_, ?_, ?_, ?_⟩
        · rw [← hceq]
          exact iC
        · intro ha
          apply iF
          rw [ha]
          rfl
        · intro h2 ha
          rw [← hceq]
          apply iS h2
          rw [ha]
          rfl
        · intro h2
          obtain ⟨e1, e2, e3, ne, hvisd⟩ := iN h2
          refine ⟨e1.trans F.mv_eq, e2.trans F.me_eq, e3.trans F.m_eq, ?_, ?_⟩
          · intro x hx1 hx2
            cases hx3 : (dfs graph dfsFuel st v).1.isVisited.getD x false with
            | true =>
              intro p hp
              obtain ⟨w, hw1, hw2⟩ := F.newexp x hx3 hx2 p hp
              refine ⟨w, ?_, iA.vis_mono w hw2⟩
              rw [e1.trans F.mv_eq, ← F.mv_eq]
              exact hw1
            | false => exact ne x hx1 hx3
          · intro x hx hmx
            rcases List.mem_cons.mp hx with rfl | hx2
            · exact iA.vis_mono x F.vis_v
            · apply hvisd x hx2
              rw [F.m_eq]
              exact hmx

/-- Specification of the Kuhn do-while (src/src/matroid_intersection.cpp:
76-84): with enough fuel the loop terminates in a state satisfying the
solver invariant in which every unmatched vertex was visited by the final
(failing) pass, and every neighbour of a visited vertex is matched to a
visited vertex — the König certificate of maximality. -/
theorem kuhnLoop_spec (n : ℕ) (edges : List (List ℕ))
    (graph : List (List (ℕ × ℕ)))
    (hGr : ∀ v u ei, (u, ei) ∈ graph.getD v [] ↔
      ei < edges.length ∧ edgeLeft edges ei = v ∧ edgeRight edges ei = u)
    (hval : ∀ i, i < edges.length →
      edgeLeft edges i < n ∧ edgeRight edges i < n)
    (dfsFuel : ℕ) (hdf : n < dfsFuel) :
    ∀ (fuel : ℕ) (st : KuhnState), KuhnInv n edges st →
      n < MatchedCount n st + fuel →
      ∃ st', kuhnLoop graph n dfsFuel fuel st = some st' ∧
        KuhnInv n edges st' ∧
        (∀ x, st'.isVisited.getD x false = true → ∀ p ∈ graph.getD x [],
          ∃ w, st'.match_vertex.getD p.1 none = some w ∧
            st'.isVisited.getD w false = true) ∧
        (∀ v, v < n → st'.isMatched.getD v false = false →
          st'.isVisited.getD v false = true) := by
  intro fuel
  induction fuel with
  | zero =>
    intro st _ hn
    have := MatchedCount_le n st
    omega
  | succ fuel ih =>
    intro st K hn
    set st1 : KuhnState := { st with isVisited := List.replicate n false }
      with hst1
    have K1 : KuhnInv n edges st1 :=
      KuhnInv_congr K rfl rfl rfl ((List.length_replicate ..).trans K.len_vis.symm)
    obtain ⟨pK, pA, pC, pF, pS, pN⟩ := kuhnPass_spec n edges graph hGr hval
      dfsFuel hdf (List.range n) st1 false K1 (fun v hv => List.mem_range.mp hv)
    have h0 : kuhnLoop graph n dfsFuel (fuel + 1) st =
        if (kuhnPass graph dfsFuel (List.range n) st1 false).2 then
          kuhnLoop graph n dfsFuel fuel
            (kuhnPass graph dfsFuel (List.range n) st1 false).1
        else some (kuhnPass graph dfsFuel (List.range n) st1 false).1 := rfl
    cases hr2 : (kuhnPass graph dfsFuel (List.range n) st1 false).2 with
    | true =>
      have heq : kuhnLoop graph n dfsFuel (fuel + 1) st =
          kuhnLoop graph n dfsFuel fuel
            (kuhnPass graph dfsFuel (List.range n) st1 false).1 := by
        rw [h0, hr2]
        rfl
      rw [heq]
      have hcnt : MatchedCount n st1 + 1 ≤
          MatchedCount n (kuhnPass graph dfsFuel (List.range n) st1 false).1 :=
        pS hr2 rfl
      have hcnt1 : MatchedCount n st1 = MatchedCount n st :=
        MatchedCount_congr n rfl
      exact ih (kuhnPass graph dfsFuel (List.range n) st1 false).1 pK
        (by omega)
    | false =>
      have heq : kuhnLoop graph n dfsFuel (fuel + 1) st =
          some (kuhnPass graph dfsFuel (List.range n) st1 false).1 := by
        rw [h0, hr2]
        rfl
      obtain ⟨e1, e2, e3, ne, hvisd⟩ := pN hr2
      refine ⟨(kuhnPass graph dfsFuel (List.range n) st1 false).1, heq, pK,
        ?_, ?_⟩
      · intro x hx p hp
        have hx1 : st1.isVisited.getD x false = false := by
          show (List.replicate n false).getD x false = false
          exact getD_replicate_self false n x
        exact ne x hx hx1 p hp
      · intro v hv hm
        apply hvisd v (List.mem_range.mpr hv)
        have hm2 : (kuhnPass graph dfsFuel (List.range n) st1
            false).1.isMatched.getD v false = false := hm
        rw [e3] at hm2
        exact hm2

/-- Membership in the recovered selection
(src/src/matroid_intersection.cpp:85-89): an edge index is collected iff
some matched vertex holds it in `match_edge`. -/
theorem mem_kuhnSelection (n : ℕ) (st : KuhnState) (ei : ℕ) :
    ei ∈ kuhnSelection n st ↔ ∃ u w, u < n ∧
      st.match_vertex.getD u none = some w ∧
      st.match_edge.getD u none = some ei := by
  unfold kuhnSelection
  rw [List.mem_filterMap]
  constructor
  · rintro ⟨u, hu, hf⟩
    rcases hmv : st.match_vertex.getD u none with - | w
    · rw [hmv] at hf
      simp at hf
    · rw [hmv] at hf
      exact ⟨u, w, List.mem_range.mp hu, hmv, hf⟩
  · rintro ⟨u, w, hu, hmv, hme⟩
    refine ⟨u, List.mem_range.mpr hu, ?_⟩
    rw [hmv]
    exact hme

theorem length_filterMap_eq_length_filter {α β : Type} (f : α → Option β) :
    ∀ l : List α,
      (l.filterMap f).length = (l.filter (fun a => (f a).isSome)).length
  | [] => rfl
  | a :: rest => by
    rw [List.filterMap_cons, List.filter_cons]
    cases hf : f a
    · simp [length_filterMap_eq_length_filter f rest]
    · simp [length_filterMap_eq_length_filter f rest]

/-- The recovered selection has exactly one entry per matched vertex. -/
theorem kuhnSelection_length (n : ℕ) (edges : List (List ℕ))
    (st : KuhnState) (K : KuhnInv n edges st) :
    (kuhnSelection n st).length = MatchedCount n st := by
  unfold kuhnSelection MatchedCount
  rw [length_filterMap_eq_length_filter]
  congr 1
  apply List.filter_congr
  intro u _
  rcases hmv : st.match_vertex.getD u none with - | w
  · rfl
  · obtain ⟨-, -, -, ei, hme, -, -, -⟩ := K.partner u w hmv
    show (st.match_edge.getD u none).isSome = true
    rw [hme]
    rfl

theorem kuhnSelection_fun_eq_some (st : KuhnState) (u ei : ℕ)
    (h : (match st.match_vertex.getD u none with
          | none => none
          | some _ => st.match_edge.getD u none) = some ei) :
    ∃ w, st.match_vertex.getD u none = some w ∧
      st.match_edge.getD u none = some ei := by
  rcases hmv : st.match_vertex.getD u none with - | w
  · rw [hmv] at h
    simp at h
  · rw [hmv] at h
    exact ⟨w, rfl, h⟩

/-- C3: on every bipartite instance with `k = 2` partition matroids whose
edge endpoints are valid vertex indices, `Kuhn2dMatchingAlgorithm::run`
(src/src/matroid_intersection.cpp:39-91) emits ratio `1.0` and a selection
of edge indices forming a matching of maximum cardinality: no matching of
the instance is larger. -/
theorem kuhn_run_max_matching {σ : Type} (p : MatchingProblem σ)
    (hk : p.toMatroidProblem.matroidQuantity = 2)
    (hval : ∀ i, i < p.edges.length →
      edgeLeft p.edges i < p.vertexPerPartitionCount ∧
      edgeRight p.edges i < p.vertexPerPartitionCount) :
    ∃ res, Kuhn2dMatchingAlgorithm.run p = some res ∧
      res.2.approximationRatio = RatioExpr.ofRat 1 ∧
      IsMatchingList p.edges res.2.solution ∧
      ∀ M, IsMatchingList p.edges M → M.length ≤ res.2.solution.length := by
  set n := p.vertexPerPartitionCount with hn
  set graph := buildGraph n p.edges with hgraph
  set st0 : KuhnState :=
    ⟨List.replicate n none, List.replicate n none,
      List.replicate n false, List.replicate n false⟩ with hst0
  have hGr : ∀ v u ei, (u, ei) ∈ graph.getD v [] ↔
      ei < p.edges.length ∧ edgeLeft p.edges ei = v ∧
        edgeRight p.edges ei = u :=
    mem_buildGraph n p.edges hval
  have K0 : KuhnInv n p.edges st0 := by
    refine ⟨List.length_replicate .., List.length_replicate ..,
      List.length_replicate .., List.length_replicate .., ?_, ?_, ?_⟩
    · intro u w h
      have h2 : (List.replicate n (none : Option ℕ)).getD u none = some w := h
      rw [getD_replicate_self] at h2
      cases h2
    · intro u u' w h h'
      have h2 : (List.replicate n (none : Option ℕ)).getD u none = some w := h
      rw [getD_replicate_self] at h2
      cases h2
    · intro w hw hm
      have h2 : (List.replicate n false).getD w false = true := hm
      rw [getD_replicate_self] at h2
      cases h2
  obtain ⟨st', hloop, K', Expl, UnmVis⟩ := kuhnLoop_spec n p.edges graph hGr
    hval (n + 1) (Nat.lt_succ_self n) (n + 1) st0 K0 (by omega)
  have hrun : Kuhn2dMatchingAlgorithm.run p =
      some (p, ⟨RatioExpr.ofRat 1, kuhnSelection n st'⟩) := by
    have h0 : Kuhn2dMatchingAlgorithm.run p =
        (match kuhnLoop graph n (n + 1) (n + 1) st0 with
          | none => none
          | some st => some (p, ⟨RatioExpr.ofRat 1, kuhnSelection n st⟩) :
          Option (MatchingProblem σ × ApproximationSolution)) := rfl
    rw [h0, hloop]
  have Hsel : ∀ ei ∈ kuhnSelection n st', ∃ u w,
      st'.match_vertex.getD u none = some w ∧
      st'.match_edge.getD u none = some ei ∧
      ei < p.edges.length ∧ edgeLeft p.edges ei = w ∧
      edgeRight p.edges ei = u := by
    intro ei hei
    obtain ⟨u, w, hu, hmv, hme⟩ := (mem_kuhnSelection n st' ei).mp hei
    obtain ⟨-, -, -, ei2, hme2, hlen2, hl2, hr2⟩ := K'.partner u w hmv
    rw [hme] at hme2
    cases Option.some.inj hme2
    exact ⟨u, w, hmv, hme, hlen2, hl2, hr2⟩
  have hIsM : IsMatchingList p.edges (kuhnSelection n st') := by
    refine ⟨?_, ?_, ?_⟩
    · refine List.Nodup.filterMap ?_ (List.nodup_range n)
      intro a a' b hb hb'
      have hb1 : (match st'.match_vertex.getD a none with
          | none => none
          | some _ => st'.match_edge.getD a none) = some b := hb
      have hb1' : (match st'.match_vertex.getD a' none with
          | none => none
          | some _ => st'.match_edge.getD a' none) = some b := hb'
      obtain ⟨w, hmv, hme⟩ := kuhnSelection_fun_eq_some st' a b hb1
      obtain ⟨w', hmv', hme'⟩ := kuhnSelection_fun_eq_some st' a' b hb1'
      obtain ⟨-, -, -, e1, hme1, -, -, hr1⟩ := K'.partner a w hmv
      obtain ⟨-, -, -, e1', hme1', -, -, hr1'⟩ := K'.partner a' w' hmv'
      rw [hme] at hme1
      cases Option.some.inj hme1
      rw [hme'] at hme1'
      cases Option.some.inj hme1'
      rw [← hr1, ← hr1']
    · intro i hi
      obtain ⟨u, w, hmv, hme, hlen, hl, hr⟩ := Hsel i hi
      exact hlen
    · intro i hi j hj hij
      obtain ⟨ui, wi, hmvi, hmei, hleni, hli, hri⟩ := Hsel i hi
      obtain ⟨uj, wj, hmvj, hmej, hlenj, hlj, hrj⟩ := Hsel j hj
      constructor
      · intro hL
        have hww : wi = wj := by rw [← hli, ← hlj]; exact hL
        rw [hww] at hmvi
        have huu : ui = uj := K'.inj ui uj wj hmvi hmvj
        rw [huu, hmej] at hmei
        exact hij (Option.some.inj hmei).symm
      · intro hR
        have huu : ui = uj := by rw [← hri, ← hrj]; exact hR
        rw [huu, hmej] at hmei
        exact hij (Option.some.inj hmei).symm
  have hselLen : (kuhnSelection n st').length = MatchedCount n st' :=
    kuhnSelection_length n p.edges st' K'
  refine ⟨(p, ⟨RatioExpr.ofRat 1, kuhnSelection n st'⟩), hrun, rfl, hIsM, ?_⟩
  intro M hM
  obtain ⟨hMnd, hMval, hMdisj⟩ := hM
  set f : ℕ → ℕ := fun ei =>
    if st'.isVisited.getD (edgeLeft p.edges ei) false = true
    then edgeRight p.edges ei
    else ((List.range n).find? (fun u =>
      st'.match_vertex.getD u none == some (edgeLeft p.edges ei))).getD 0
    with hf
  have Hf : ∀ ei ∈ M,
      (st'.isVisited.getD (edgeLeft p.edges ei) false = true →
        f ei = edgeRight p.edges ei ∧
        ∃ w, st'.match_vertex.getD (f ei) none = some w ∧
          st'.isVisited.getD w false = true ∧ f ei < n)
      ∧ (st'.isVisited.getD (edgeLeft p.edges ei) false = false →
        st'.match_vertex.getD (f ei) none = some (edgeLeft p.edges ei) ∧
        f ei < n) := by
    intro ei hei
    have heiv : ei < p.edges.length := hMval ei hei
    have hLn : edgeLeft p.edges ei < n := (hval ei heiv).1
    have hRn : edgeRight p.edges ei < n := (hval ei heiv).2
    constructor
    · intro hvisL
      have hfe : f ei = edgeRight p.edges ei := if_pos hvisL
      have hmem : (edgeRight p.edges ei, ei) ∈
          graph.getD (edgeLeft p.edges ei) [] :=
        (hGr _ _ _).mpr ⟨heiv, rfl, rfl⟩
      obtain ⟨w, hw1, hw2⟩ := Expl _ hvisL _ hmem
      refine ⟨hfe, w, ?_, hw2, ?_⟩
      · rw [hfe]
        exact hw1
      · rw [hfe]
        exact hRn
    · intro hvisL
      have hfneg : f ei = ((List.range n).find? (fun u =>
          st'.match_vertex.getD u none ==
            some (edgeLeft p.edges ei))).getD 0 :=
        if_neg (by rw [hvisL]; exact Bool.false_ne_true)
      have hmL : st'.isMatched.getD (edgeLeft p.edges ei) false = true := by
        cases hm : st'.isMatched.getD (edgeLeft p.edges ei) false with
        | true => rfl
        | false =>
          have hc := UnmVis _ hLn hm
          rw [hvisL] at hc
          cases hc
      obtain ⟨u0, hu0⟩ := K'.matched_partner _ hLn hmL
      have hu0n : u0 < n := (K'.partner u0 _ hu0).1
      have hsome : ((List.range n).find? (fun u =>
          st'.match_vertex.getD u none ==
            some (edgeLeft p.edges ei))).isSome = true := by
        rw [List.find?_isSome]
        refine ⟨u0, List.mem_range.mpr hu0n, ?_⟩
        rw [beq_iff_eq]
        exact hu0
      obtain ⟨u1, hu1⟩ := Option.isSome_iff_exists.mp hsome
      have hpu1 := List.find?_some hu1
      rw [beq_iff_eq] at hpu1
      have hu1n : u1 < n := List.mem_range.mp (List.mem_of_find?_eq_some hu1)
      have hfe : f ei = u1 := by
        rw [hfneg, hu1]
        rfl
      rw [hfe]
      exact ⟨hpu1, hu1n⟩
  have hsub : ∀ x ∈ M.map f, x ∈ (List.range n).filter
      (fun u => (st'.match_vertex.getD u none).isSome) := by
    intro x hx
    obtain ⟨ei, hei, rfl⟩ := List.mem_map.mp hx
    obtain ⟨HV, HU⟩ := Hf ei hei
    rw [List.mem_filter]
    cases hvisL : st'.isVisited.getD (edgeLeft p.edges ei) false with
    | true =>
      obtain ⟨hfe, w, hw1, hw2, hlt⟩ := HV hvisL
      refine ⟨List.mem_range.mpr hlt, ?_⟩
      rw [hw1]
      rfl
    | false =>
      obtain ⟨hw1, hlt⟩ := HU hvisL
      refine ⟨List.mem_range.mpr hlt, ?_⟩
      rw [hw1]
      rfl
  have hinj : ∀ x ∈ M, ∀ y ∈ M, f x = f y → x = y := by
    intro x hx y hy hxy
    by_contra hne
    obtain ⟨HVx, HUx⟩ := Hf x hx
    obtain ⟨HVy, HUy⟩ := Hf y hy
    have hdisj := hMdisj x hx y hy hne
    cases hvx : st'.isVisited.getD (edgeLeft p.edges x) false with
    | true =>
      obtain ⟨hfex, wx, hwx1, hwx2, -⟩ := HVx hvx
      cases hvy : st'.isVisited.getD (edgeLeft p.edges y) false with
      | true =>
        obtain ⟨hfey, -⟩ := HVy hvy
        rw [hfex, hfey] at hxy
        exact hdisj.2 hxy
      | false =>
        obtain ⟨hwy1, -⟩ := HUy hvy
        rw [hxy, hwy1] at hwx1
        have hww : edgeLeft p.edges y = wx := Option.some.inj hwx1
        rw [← hww] at hwx2
        rw [hvy] at hwx2
        cases hwx2
    | false =>
      obtain ⟨hwx1, -⟩ := HUx hvx
      cases hvy : st'.isVisited.getD (edgeLeft p.edges y) false with
      | true =>
        obtain ⟨hfey, wy, hwy1, hwy2, -⟩ := HVy hvy
        rw [hxy, hwy1] at hwx1
        have hww : wy = edgeLeft p.edges x := Option.some.inj hwx1
        rw [hww] at hwy2
        rw [hvx] at hwy2
        cases hwy2
      | false =>
        obtain ⟨hwy1, -⟩ := HUy hvy
        rw [hxy, hwy1] at hwx1
        exact hdisj.1 (Option.some.inj hwx1).symm
  have hmapnd : (M.map f).Nodup := List.Nodup.map_on hinj hMnd
  have hfilnd : ((List.range n).filter
      (fun u => (st'.match_vertex.getD u none).isSome)).Nodup :=
    List.Nodup.filter _ (List.nodup_range n)
  have hsubF : (M.map f).toFinset ⊆ ((List.range n).filter
      (fun u => (st'.match_vertex.getD u none).isSome)).toFinset := by
    intro x hx
    rw [List.mem_toFinset] at hx ⊢
    exact hsub x hx
  have hcard := Finset.card_le_card hsubF
  rw [List.toFinset_card_of_nodup hmapnd,
    List.toFinset_card_of_nodup hfilnd, List.length_map] at hcard
  rw [hselLen]
  exact hcard

/-- Witness for C3: on the two-vertex-per-side instance with edges
`[[0,0],[0,1],[1,0]]` the hypotheses hold and the emitted selection is a
maximum matching. -/
theorem kuhn_run_max_matching_witness :
    (⟨⟨4, 2, [], []⟩, [[0, 0], [0, 1], [1, 0]], 2⟩ :
        MatchingProblem Unit).toMatroidProblem.matroidQuantity = 2 ∧
    (∀ i, i < (⟨⟨4, 2, [], []⟩, [[0, 0], [0, 1], [1, 0]], 2⟩ :
        MatchingProblem Unit).edges.length →
      edgeLeft (⟨⟨4, 2, [], []⟩, [[0, 0], [0, 1], [1, 0]], 2⟩ :
          MatchingProblem Unit).edges i <
        (⟨⟨4, 2, [], []⟩, [[0, 0], [0, 1], [1, 0]], 2⟩ :
          MatchingProblem Unit).vertexPerPartitionCount ∧
      edgeRight (⟨⟨4, 2, [], []⟩, [[0, 0], [0, 1], [1, 0]], 2⟩ :
          MatchingProblem Unit).edges i <
        (⟨⟨4, 2, [], []⟩, [[0, 0], [0, 1], [1, 0]], 2⟩ :
          MatchingProblem Unit).vertexPerPartitionCount) ∧
    ∃ res, Kuhn2dMatchingAlgorithm.run
        (⟨⟨4, 2, [], []⟩, [[0, 0], [0, 1], [1, 0]], 2⟩ :
          MatchingProblem Unit) = some res ∧
      res.2.approximationRatio = RatioExpr.ofRat 1 ∧
      IsMatchingList (⟨⟨4, 2, [], []⟩, [[0, 0], [0, 1], [1, 0]], 2⟩ :
        MatchingProblem Unit).edges res.2.solution ∧
      ∀ M, IsMatchingList (⟨⟨4, 2, [], []⟩, [[0, 0], [0, 1], [1, 0]], 2⟩ :
          MatchingProblem Unit).edges M →
        M.length ≤ res.2.solution.length :=
  ⟨rfl, by decide,
    kuhn_run_max_matching
      (⟨⟨4, 2, [], []⟩, [[0, 0], [0, 1], [1, 0]], 2⟩ : MatchingProblem Unit)
      rfl (by decide)⟩

end MatroidEngine
